import Mathlib

set_option maxRecDepth 4000

/-!
Shallow embedding of the message dispatch engine (`MessageLoop` in the
messaging module): messages, the posted-message queue, per-handler hook
lists with tombstoning, synchronous send, deferred post with conflation,
the sentinel-bounded loop run, flush, and the exception-routing policy.

Handlers and hooks are identified by natural numbers.  External behaviour
(what a hook does, what a handler's `processMessage` does, how a message's
`conflate` merges state, whether the installed exception handler throws)
is supplied by an environment `Env`.  Each operation additionally returns
a list of `Event`s recording the observable invocations it performed; the
events are instrumentation only and never influence control flow or state.
-/

/-- A message: its `type`, its `isConflatable` flag, and a `payload`
    standing for the message object's internal state (the state that a
    `conflate` call may merge into an already-queued message). -/
structure Msg where
  type : Nat
  isConflatable : Bool
  payload : Nat
deriving DecidableEq, Repr

/-- A posted-message queue entry (`PostedMessage` in the source): both
    fields are nulled when the entry is invalidated by `clearData`.  The
    `sent` flag marks the sentinel object appended by `runMessageLoop`;
    the source distinguishes the sentinel from cleared entries by object
    identity (`posted === sentinel`), which the flag models, since the
    sentinel is a fresh object distinct from every queued entry. -/
structure QueueEntry where
  handler : Option Nat
  msg : Option Msg
  sent : Bool
deriving DecidableEq, Repr

/-- Observable invocations performed by the engine. -/
inductive Event where
  | hookRun (k : Nat)
  | process (h : Nat) (m : Msg)
  | exnHandled (e : Nat)
  | confCall (target incoming : Msg) (accepted : Bool)
  | enq (h : Nat) (m : Msg)
  | dispatchE (h : Nat) (m : Msg)
deriving DecidableEq, Repr

/-- What a hook invocation does after performing its removals: return a
    boolean, or raise exception `e`. -/
inductive HookBeh where
  | ret (b : Bool)
  | thrw (e : Nat)
deriving DecidableEq, Repr

/-- The behaviour of one hook invocation: the `removeMessageHook` calls it
    performs re-entrantly during its body, then its outcome. -/
structure HookEff where
  removals : List (Nat × Nat)
  beh : HookBeh

/-- The environment: behaviour of hooks, of handlers' `processMessage`
    (the messages it posts, then an optional raised exception), of message
    `conflate` (success flag and the updated state of the queued message),
    and of the installed exception handler (`none` = returns normally,
    `some e2` = itself raises `e2`). -/
structure Env where
  hookBeh : Nat → Nat → Msg → HookEff
  procBeh : Nat → Msg → List (Nat × Msg) × Option Nat
  conflate : Msg → Msg → Bool × Msg
  exnBeh : Nat → Option Nat

/-- The module-level state of `MessageLoop`: the posted-message queue, the
    handler-to-hook-array registry, the pending loop-task handle (handles
    are numbered by `nextHandle` so that a freshly scheduled task is
    distinguishable from an old one), the flush recursion guard, the dirty
    set of hook arrays awaiting compaction, and whether a cleanup pass has
    been scheduled. -/
structure EngineState where
  queue : List QueueEntry
  hooks : List (Nat × List (Option Nat))
  pending : Option Nat
  nextHandle : Nat
  flushGuard : Bool
  dirty : List Nat
  cleanupScheduled : Bool
deriving DecidableEq, Repr

/-- `messageHooks.get(handler)`: association-list lookup of a handler's
    hook array. -/
def lookupHooks : List (Nat × List (Option Nat)) → Nat → Option (List (Option Nat))
  | [], _ => none
  | p :: rest, h => if p.1 = h then some p.2 else lookupHooks rest h

/-- `messageHooks.set(handler, arr)`: association-list update or insert. -/
def setHooks : List (Nat × List (Option Nat)) → Nat → List (Option Nat) → List (Nat × List (Option Nat))
  | [], h, arr => [(h, arr)]
  | p :: rest, h, arr => if p.1 = h then (h, arr) :: rest else p :: setHooks rest h arr

/-- `hooks.indexOf(hook)`: index of the first slot holding exactly this
    (non-null) hook, if any. -/
def slotIdx (k : Nat) : List (Option Nat) → Option Nat
  | [] => none
  | s :: rest => if s = some k then some 0 else (slotIdx k rest).map (fun j => j + 1)

/-- `scheduleCleanup(hooks)`: schedule a deferred compaction pass if the
    dirty set was empty, then add the array (keyed by its handler) to the
    dirty set. -/
def scheduleCleanup (st : EngineState) (h : Nat) : EngineState :=
  let sched := if st.dirty = [] then true else st.cleanupScheduled
  { st with cleanupScheduled := sched,
            dirty := if h ∈ st.dirty then st.dirty else st.dirty ++ [h] }

/-- `MessageLoop.installMessageHook`: no-op when the hook is already
    present, otherwise append it to the end of the handler's array
    (creating the array if absent). -/
def installMessageHook (st : EngineState) (h k : Nat) : EngineState :=
  match lookupHooks st.hooks h with
  | none => { st with hooks := setHooks st.hooks h [some k] }
  | some arr =>
    if some k ∈ arr then st
    else { st with hooks := setHooks st.hooks h (arr ++ [some k]) }

/-- `MessageLoop.removeMessageHook`: bail if the handler has no array or
    the hook is not found; otherwise tombstone the slot (set it to null
    without resizing) and schedule a cleanup of the array. -/
def removeMessageHook (st : EngineState) (h k : Nat) : EngineState :=
  match lookupHooks st.hooks h with
  | none => st
  | some arr =>
    match slotIdx k arr with
    | none => st
    | some i =>
      scheduleCleanup { st with hooks := setHooks st.hooks h (arr.set i none) } h

/-- The queue-entry invalidation performed by `clearData`: null both
    fields of every entry belonging to the handler. -/
def invalidateFor (h : Nat) (e : QueueEntry) : QueueEntry :=
  if e.handler = some h then { e with handler := none, msg := none } else e

/-- `MessageLoop.clearData`: tombstone every slot of the handler's hook
    array (when present and non-empty) and schedule its cleanup, then
    invalidate every queued entry belonging to the handler in place. -/
def clearData (st : EngineState) (h : Nat) : EngineState :=
  let st1 :=
    match lookupHooks st.hooks h with
    | none => st
    | some arr =>
      if arr.length = 0 then st
      else scheduleCleanup { st with hooks := setHooks st.hooks h (arr.map (fun _ => none)) } h
  { st1 with queue := st1.queue.map (invalidateFor h) }

/-- `enqueueMessage`: append the posted pair to the queue (modelling
    `LinkedList.addLast`), then schedule a loop run unless a loop task is
    already pending; a fresh task receives handle `nextHandle`. -/
def enqueueMessage (st : EngineState) (h : Nat) (m : Msg) : EngineState × List Event :=
  let st1 := { st with queue := st.queue ++ [⟨some h, some m, false⟩] }
  if st1.pending.isSome then (st1, [Event.enq h m])
  else ({ st1 with pending := some st1.nextHandle, nextHandle := st1.nextHandle + 1 },
        [Event.enq h m])

/-- The conflation scan of `postMessage`.  Modelled from the spec: the
    `some` iterator helper (whose source file is outside this repository)
    visits the queue front to back and stops at the first entry for which
    the predicate returns true; the inlined predicate rejects entries of a
    different handler, invalidated entries, entries of a different type
    and non-conflatable messages, and otherwise returns the result of
    `posted.msg.conflate(msg)` (which may update the queued message's
    state even when it declines). -/
def scanConflate (env : Env) (h : Nat) (m : Msg) :
    List QueueEntry → Bool × List QueueEntry × List Event
  | [] => (false, [], [])
  | e :: rest =>
    if e.handler ≠ some h then
      let r := scanConflate env h m rest
      (r.1, e :: r.2.1, r.2.2)
    else
      match e.msg with
      | none =>
        let r := scanConflate env h m rest
        (r.1, e :: r.2.1, r.2.2)
      | some pm =>
        if pm.type ≠ m.type ∨ pm.isConflatable = false then
          let r := scanConflate env h m rest
          (r.1, e :: r.2.1, r.2.2)
        else
          let c := env.conflate pm m
          let e2 : QueueEntry := { e with msg := some c.2 }
          if c.1 then (true, e2 :: rest, [Event.confCall pm m true])
          else
            let r := scanConflate env h m rest
            (r.1, e2 :: r.2.1, Event.confCall pm m false :: r.2.2)

/-- `MessageLoop.postMessage`: enqueue directly when the message is not
    conflatable; otherwise run the conflation scan and enqueue only when
    no queued message absorbed it. -/
def postMessage (env : Env) (st : EngineState) (h : Nat) (m : Msg) :
    EngineState × List Event :=
  if m.isConflatable = false then enqueueMessage st h m
  else
    let r := scanConflate env h m st.queue
    let st1 := { st with queue := r.2.1 }
    if r.1 then (st1, r.2.2)
    else
      let q := enqueueMessage st1 h m
      (q.1, r.2.2 ++ q.2)

/-- Apply the re-entrant `removeMessageHook` calls a hook performs. -/
def applyRemovals (st : EngineState) : List (Nat × Nat) → EngineState
  | [] => st
  | p :: rest => applyRemovals (removeMessageHook st p.1 p.2) rest

/-- `invokeHook`: run the hook body (its removals, then its outcome); a
    raised exception is passed to the exception handler and the result
    defaults to `true` (the initial value of `result` in the source); if
    the exception handler itself raises, that exception propagates. -/
def invokeHook (env : Env) (st : EngineState) (k h : Nat) (m : Msg) :
    EngineState × List Event × Except Nat Bool :=
  let eff := env.hookBeh k h m
  let st1 := applyRemovals st eff.removals
  match eff.beh with
  | HookBeh.ret b => (st1, [Event.hookRun k], Except.ok b)
  | HookBeh.thrw e =>
    match env.exnBeh e with
    | none => (st1, [Event.hookRun k, Event.exnHandled e], Except.ok true)
    | some e2 => (st1, [Event.hookRun k], Except.error e2)

/-- Read slot `i` of the handler's current hook array (empty when the
    handler has no array; out-of-range reads give null). -/
def readSlot (st : EngineState) (h i : Nat) : Option Nat :=
  ((lookupHooks st.hooks h).getD []).getD i none

/-- The hook chain of `sendMessage`.  Modelled from the spec: the
    `every(retro(hooks), ...)` helper combination (whose source files are
    outside this repository) iterates the live array from the index that
    was last at call time down to index 0, treats null slots as passing,
    and stops at the first hook returning false.  `i` is the number of
    slots still to visit; slot `i - 1` is read next, from the current
    (possibly re-entrantly tombstoned) array. -/
def runHooksDown (env : Env) (h : Nat) (m : Msg) :
    Nat → EngineState → EngineState × List Event × Except Nat Bool
  | 0, st => (st, [], Except.ok true)
  | i + 1, st =>
    match readSlot st h i with
    | none => runHooksDown env h m i st
    | some k =>
      match invokeHook env st k h m with
      | (st1, evs, Except.ok true) =>
        let r := runHooksDown env h m i st1
        (r.1, evs ++ r.2.1, r.2.2)
      | (st1, evs, Except.ok false) => (st1, evs, Except.ok false)
      | (st1, evs, Except.error e) => (st1, evs, Except.error e)

/-- Perform the posts a handler makes during `processMessage`. -/
def applyPosts (env : Env) : List (Nat × Msg) → EngineState → EngineState × List Event
  | [], st => (st, [])
  | p :: rest, st =>
    let r := postMessage env st p.1 p.2
    let r2 := applyPosts env rest r.1
    (r2.1, r.2 ++ r2.2)

/-- `invokeHandler`: run `processMessage` (its posts, then an optional
    raised exception); a raised exception is passed to the exception
    handler; if the exception handler itself raises, that propagates. -/
def invokeHandler (env : Env) (st : EngineState) (h : Nat) (m : Msg) :
    EngineState × List Event × Option Nat :=
  let pr := env.procBeh h m
  let r := applyPosts env pr.1 st
  match pr.2 with
  | none => (r.1, Event.process h m :: r.2, none)
  | some e =>
    match env.exnBeh e with
    | none => (r.1, (Event.process h m :: r.2) ++ [Event.exnHandled e], none)
    | some e2 => (r.1, Event.process h m :: r.2, some e2)

/-- `MessageLoop.sendMessage`: with no installed hooks (absent or empty
    array) invoke the handler directly; otherwise run the hook chain
    newest-first and invoke the handler only when every hook passed. -/
def sendMessage (env : Env) (st : EngineState) (h : Nat) (m : Msg) :
    EngineState × List Event × Option Nat :=
  match lookupHooks st.hooks h with
  | none => invokeHandler env st h m
  | some arr =>
    if arr.length = 0 then invokeHandler env st h m
    else
      match runHooksDown env h m arr.length st with
      | (st1, evs, Except.ok true) =>
        let r := invokeHandler env st1 h m
        (r.1, evs ++ r.2.1, r.2.2)
      | (st1, evs, Except.ok false) => (st1, evs, none)
      | (st1, evs, Except.error e) => (st1, evs, some e)

/-- The sentinel entry appended once per loop run. -/
def sentinelE : QueueEntry := ⟨none, none, true⟩

/-- The drain loop of `runMessageLoop`: repeatedly remove the first
    entry; stop at the sentinel; dispatch entries whose two fields are
    both present; skip invalidated entries.  The source loops until the
    sentinel is found; since dispatches only ever append entries behind
    the sentinel, fuel `initial queue length + 1` always reaches it. -/
def runLoopFuel (env : Env) : Nat → EngineState → EngineState × List Event × Option Nat
  | 0, st => (st, [], none)
  | n + 1, st =>
    match st.queue with
    | [] => (st, [], none)
    | e :: rest =>
      let st1 := { st with queue := rest }
      if e.sent then (st1, [], none)
      else
        match e.handler, e.msg with
        | some hd, some m =>
          match sendMessage env st1 hd m with
          | (st2, evs, some ex) => (st2, Event.dispatchE hd m :: evs, some ex)
          | (st2, evs, none) =>
            let r := runLoopFuel env n st2
            (r.1, (Event.dispatchE hd m :: evs) ++ r.2.1, r.2.2)
        | _, _ => runLoopFuel env n st1

/-- `runMessageLoop`: clear the pending task handle first, return at once
    when the queue is empty, otherwise append a sentinel and drain the
    queue up to it.  An exception escaping a dispatch (only possible when
    the exception handler itself throws) aborts the run and propagates. -/
def runMessageLoop (env : Env) (st : EngineState) : EngineState × List Event × Option Nat :=
  let st1 := { st with pending := none }
  if st1.queue = [] then (st1, [], none)
  else runLoopFuel env (st1.queue.length + 1) { st1 with queue := st1.queue ++ [sentinelE] }

/-- `MessageLoop.flush`: bail when re-entered or when no loop task is
    pending; otherwise cancel the pending task and run the loop inline
    inside the recursion guard.  The guard is only reset when the run
    returns normally (the source has no `finally`). -/
def flush (env : Env) (st : EngineState) : EngineState × List Event × Option Nat :=
  if st.flushGuard = true ∨ st.pending = none then (st, [], none)
  else
    let r := runMessageLoop env { st with pending := none, flushGuard := true }
    match r.2.2 with
    | some ex => (r.1, r.2.1, some ex)
    | none => ({ r.1 with flushGuard := false }, r.2.1, none)

/-! ### Observation helpers and derived environments -/

/-- The handler/message pairs dispatched by a loop run, in order. -/
def dispatches (evs : List Event) : List (Nat × Msg) :=
  evs.filterMap fun ev =>
    match ev with
    | Event.dispatchE h m => some (h, m)
    | _ => none

/-- The queue entries appended (enqueued) during a run, in order. -/
def enqueues (evs : List Event) : List QueueEntry :=
  evs.filterMap fun ev =>
    match ev with
    | Event.enq h m => some (⟨some h, some m, false⟩ : QueueEntry)
    | _ => none

/-- The live (non-invalidated, non-sentinel) entries of a queue, as
    handler/message pairs, in order. -/
def liveEntries (q : List QueueEntry) : List (Nat × Msg) :=
  q.filterMap fun e =>
    match e.handler, e.msg, e.sent with
    | some h, some m, false => some (h, m)
    | _, _, _ => none

/-- Erase the exception-handler invocations from a trace. -/
def eraseExn (evs : List Event) : List Event :=
  evs.filter fun ev =>
    match ev with
    | Event.exnHandled _ => false
    | _ => true

/-- The environment in which every faulting hook instead returns `true`
    and the handler never faults (used to state the fail-open policy). -/
def deThrow (env : Env) : Env :=
  { env with
    hookBeh := fun k h m =>
      { removals := (env.hookBeh k h m).removals,
        beh :=
          match (env.hookBeh k h m).beh with
          | HookBeh.ret b => HookBeh.ret b
          | HookBeh.thrw _ => HookBeh.ret true },
    procBeh := fun h m => ((env.procBeh h m).1, none) }

/-- The environment in which hooks perform no re-entrant removals (used to
    state that re-entrant self-removal does not alter the current
    delivery). -/
def pureEnv (env : Env) : Env :=
  { env with hookBeh := fun k h m => { removals := [], beh := (env.hookBeh k h m).beh } }

/-- The hook ids a send will invoke, newest-first, together with whether
    the whole chain passes: the chain stops at the first hook returning
    false; a faulting hook counts as passing (the source's fail-open
    default). -/
def hookChain (env : Env) (h : Nat) (m : Msg) : List Nat → List Nat × Bool
  | [] => ([], true)
  | k :: rest =>
    match (env.hookBeh k h m).beh with
    | HookBeh.ret true => let r := hookChain env h m rest; (k :: r.1, r.2)
    | HookBeh.ret false => ([k], false)
    | HookBeh.thrw _ => let r := hookChain env h m rest; (k :: r.1, r.2)

/-- The handler's hook array, or `[]` when none is installed. -/
def slotsOfD (st : EngineState) (h : Nat) : List (Option Nat) :=
  (lookupHooks st.hooks h).getD []

/-- Modelled from the amended claim for `postMessage`: the queued
    messages an incoming conflatable message is matched against, in queue
    order (same handler, live, same type, conflatable). -/
def matchMsgs (h : Nat) (m : Msg) (q : List QueueEntry) : List Msg :=
  q.filterMap fun e =>
    match e.msg with
    | some pm =>
      if e.handler = some h ∧ pm.type = m.type ∧ pm.isConflatable = true then some pm
      else none
    | none => none

/-- Modelled from the amended claim for `postMessage`: try each matching
    queued message in order until one accepts the conflation. -/
def claimScan (env : Env) (m : Msg) : List Msg → Bool × List Event
  | [] => (false, [])
  | pm :: rest =>
    let c := env.conflate pm m
    if c.1 then (true, [Event.confCall pm m true])
    else
      let r := claimScan env m rest
      (r.1, Event.confCall pm m false :: r.2)

/-! ### Concrete environments and states used by the witnesses -/

/-- A benign environment: every hook passes, handlers do nothing, conflation
always declines, the exception handler never throws. -/
def wEnv : Env where
  hookBeh := fun _ _ _ => ⟨[], HookBeh.ret true⟩
  procBeh := fun _ _ => ([], none)
  conflate := fun pm _ => (false, pm)
  exnBeh := fun _ => none

/-- A non-conflatable message. -/
def mW : Msg := ⟨1, false, 0⟩

/-- A conflatable message. -/
def mWc : Msg := ⟨5, true, 3⟩

/-- Handler 0 with two installed hooks (hook 11 newest). -/
def wSt : EngineState := ⟨[], [(0, [some 10, some 11])], none, 0, false, [], false⟩

/-- One queued message for handler 0, no hooks. -/
def wSt3 : EngineState := ⟨[⟨some 0, some mW, false⟩], [], none, 0, false, [], false⟩

/-- Hook 10 faults; the handler faults too; the exception handler returns. -/
def wEnv4 : Env where
  hookBeh := fun k _ _ => ⟨[], if k = 10 then HookBeh.thrw 5 else HookBeh.ret true⟩
  procBeh := fun _ _ => ([], some 7)
  conflate := fun pm _ => (false, pm)
  exnBeh := fun _ => none

/-- Messages queued for handlers 0 and 1; handler 0 has one hook. -/
def wSt5 : EngineState :=
  ⟨[⟨some 0, some mW, false⟩, ⟨some 1, some mW, false⟩], [(0, [some 3])],
   none, 0, false, [], false⟩

/-- Hook 11 removes itself while executing; everything else is benign. -/
def wEnv6 : Env where
  hookBeh := fun k h2 _ => ⟨if k = 11 then [(h2, k)] else [], HookBeh.ret true⟩
  procBeh := fun _ _ => ([], none)
  conflate := fun pm _ => (false, pm)
  exnBeh := fun _ => none

/-- A loop task with handle 0 is pending. -/
def wSt8 : EngineState := ⟨[], [], some 0, 1, false, [], false⟩

/-- Nothing pending. -/
def wSt8b : EngineState := ⟨[], [], none, 0, false, [], false⟩

/-- A pending task and one queued message. -/
def wSt9 : EngineState := ⟨[⟨some 0, some mW, false⟩], [], some 0, 1, false, [], false⟩

/-- A pending task, but the flush guard is set. -/
def wSt9g : EngineState := ⟨[], [], some 0, 1, true, [], false⟩

/-- Every hook throws 5; `processMessage` throws 5; the installed exception
handler itself throws 9. -/
def wEnv10 : Env where
  hookBeh := fun _ _ _ => ⟨[], HookBeh.thrw 5⟩
  procBeh := fun _ _ => ([], some 5)
  conflate := fun pm _ => (false, pm)
  exnBeh := fun _ => some 9

/-- One queued message for handler 0, which has the single hook 10. -/
def wSt10 : EngineState :=
  ⟨[⟨some 0, some mW, false⟩], [(0, [some 10])], none, 0, false, [], false⟩

/-! ### C2 counterexample state -/

/-- The incoming conflatable message of the counterexample. -/
def mIn : Msg := ⟨5, true, 9⟩

/-- The first queued matching message; its `conflate` declines. -/
def m1C2 : Msg := ⟨5, true, 1⟩

/-- The second queued matching message; its `conflate` accepts. -/
def m2C2 : Msg := ⟨5, true, 2⟩

/-- Environment for the counterexample: conflation into a queued message
succeeds exactly when that queued message has payload 2. -/
def envC2 : Env where
  hookBeh := fun _ _ _ => ⟨[], HookBeh.ret true⟩
  procBeh := fun _ _ => ([], none)
  conflate := fun pm _ => (pm.payload == 2, pm)
  exnBeh := fun _ => none

/-- Queue with two live conflatable entries of the same handler and type. -/
def stC2 : EngineState :=
  ⟨[⟨some 0, some m1C2, false⟩, ⟨some 0, some m2C2, false⟩], [], none, 0, false, [], false⟩

/-! ### Slot weakening: re-entrant removals only tombstone slots -/

/-- `arr` is `arr0` with some slots tombstoned. -/
def weakens (arr0 arr : List (Option Nat)) : Prop :=
  arr.length = arr0.length ∧
  ∀ j, j < arr0.length → arr[j]? = arr0[j]? ∨ arr[j]? = some none

/-- The handler's current hook array is a tombstone-weakening of `arr0`. -/
def hooksW (st : EngineState) (h : Nat) (arr0 : List (Option Nat)) : Prop :=
  ∃ arr, lookupHooks st.hooks h = some arr ∧ weakens arr0 arr

/-! ### Evolution of the pending-task handle -/

/-- From `stA` to `stB`, the handle counter only grows, and the pending
handle is either untouched or a freshly allocated one. -/
def stepPend (stA stB : EngineState) : Prop :=
  stA.nextHandle ≤ stB.nextHandle ∧
  (stB.pending = stA.pending ∨ ∃ j, stB.pending = some j ∧ stA.nextHandle ≤ j)

/-! ### Registry lemmas -/

theorem lookup_setHooks_self (l : List (Nat × List (Option Nat))) (h : Nat)
    (arr : List (Option Nat)) : lookupHooks (setHooks l h arr) h = some arr := by
  induction l with
  | nil => simp [setHooks, lookupHooks]
  | cons p rest ih =>
    by_cases hp : p.1 = h
    · simp [setHooks, hp, lookupHooks]
    · simp [setHooks, hp, lookupHooks, ih]

theorem lookup_setHooks_ne (l : List (Nat × List (Option Nat))) (h h' : Nat)
    (arr : List (Option Nat)) (hne : h' ≠ h) :
    lookupHooks (setHooks l h arr) h' = lookupHooks l h' := by
  induction l with
  | nil => simp [setHooks, lookupHooks, hne.symm]
  | cons p rest ih =>
    by_cases hp : p.1 = h
    · have h2 : ¬ (h = h') := fun hh => hne hh.symm
      simp [setHooks, hp, lookupHooks, h2]
    · simp [setHooks, hp, lookupHooks, ih]

/-! ### Frame lemmas: state components each operation leaves alone -/

theorem scheduleCleanup_frame (st : EngineState) (h : Nat) :
    (scheduleCleanup st h).queue = st.queue ∧ (scheduleCleanup st h).hooks = st.hooks ∧
    (scheduleCleanup st h).pending = st.pending ∧
    (scheduleCleanup st h).nextHandle = st.nextHandle ∧
    (scheduleCleanup st h).flushGuard = st.flushGuard :=
  ⟨rfl, rfl, rfl, rfl, rfl⟩

theorem removeMessageHook_frame (st : EngineState) (h k : Nat) :
    (removeMessageHook st h k).queue = st.queue ∧
    (removeMessageHook st h k).pending = st.pending ∧
    (removeMessageHook st h k).nextHandle = st.nextHandle ∧
    (removeMessageHook st h k).flushGuard = st.flushGuard := by
  unfold removeMessageHook
  split
  · exact ⟨rfl, rfl, rfl, rfl⟩
  · split
    · exact ⟨rfl, rfl, rfl, rfl⟩
    · exact ⟨rfl, rfl, rfl, rfl⟩

theorem applyRemovals_frame (rs : List (Nat × Nat)) : ∀ st : EngineState,
    (applyRemovals st rs).queue = st.queue ∧
    (applyRemovals st rs).pending = st.pending ∧
    (applyRemovals st rs).nextHandle = st.nextHandle ∧
    (applyRemovals st rs).flushGuard = st.flushGuard := by
  induction rs with
  | nil => intro st; exact ⟨rfl, rfl, rfl, rfl⟩
  | cons p rest ih =>
    intro st
    have h1 := removeMessageHook_frame st p.1 p.2
    have h2 := ih (removeMessageHook st p.1 p.2)
    exact ⟨by rw [applyRemovals, h2.1, h1.1], by rw [applyRemovals, h2.2.1, h1.2.1],
           by rw [applyRemovals, h2.2.2.1, h1.2.2.1],
           by rw [applyRemovals, h2.2.2.2, h1.2.2.2]⟩

theorem invokeHook_frame (env : Env) (st : EngineState) (k h : Nat) (m : Msg) :
    (invokeHook env st k h m).1.queue = st.queue ∧
    (invokeHook env st k h m).1.pending = st.pending ∧
    (invokeHook env st k h m).1.nextHandle = st.nextHandle ∧
    (invokeHook env st k h m).1.flushGuard = st.flushGuard := by
  have hr := applyRemovals_frame (env.hookBeh k h m).removals st
  cases hb : (env.hookBeh k h m).beh with
  | ret b => simp only [invokeHook, hb]; exact hr
  | thrw e =>
    cases he : env.exnBeh e with
    | none => simp only [invokeHook, hb, he]; exact hr
    | some e2 => simp only [invokeHook, hb, he]; exact hr

theorem runHooksDown_frame (env : Env) (h : Nat) (m : Msg) : ∀ (i : Nat) (st : EngineState),
    (runHooksDown env h m i st).1.queue = st.queue ∧
    (runHooksDown env h m i st).1.pending = st.pending ∧
    (runHooksDown env h m i st).1.nextHandle = st.nextHandle ∧
    (runHooksDown env h m i st).1.flushGuard = st.flushGuard := by
  intro i
  induction i with
  | zero => intro st; exact ⟨rfl, rfl, rfl, rfl⟩
  | succ i ih =>
    intro st
    rw [runHooksDown]
    split
    · exact ih st
    · rename_i k hk
      split
      · rename_i st1 evs heq
        have hif := invokeHook_frame env st k h m
        rw [heq] at hif
        have hih := ih st1
        dsimp only
        exact ⟨hih.1.trans hif.1, hih.2.1.trans hif.2.1,
               hih.2.2.1.trans hif.2.2.1, hih.2.2.2.trans hif.2.2.2⟩
      · rename_i st1 evs heq
        have hif := invokeHook_frame env st k h m
        rw [heq] at hif
        exact hif
      · rename_i st1 evs e heq
        have hif := invokeHook_frame env st k h m
        rw [heq] at hif
        exact hif

/-! ### Queue-operation lemmas -/

theorem enqueues_append (a b : List Event) :
    enqueues (a ++ b) = enqueues a ++ enqueues b := by
  simp [enqueues, List.filterMap_append]

theorem dispatches_append (a b : List Event) :
    dispatches (a ++ b) = dispatches a ++ dispatches b := by
  simp [dispatches, List.filterMap_append]

theorem applyPosts_cons (env : Env) (p : Nat × Msg) (rest : List (Nat × Msg))
    (st : EngineState) :
    applyPosts env (p :: rest) st =
      ((applyPosts env rest (postMessage env st p.1 p.2).1).1,
       (postMessage env st p.1 p.2).2 ++ (applyPosts env rest (postMessage env st p.1 p.2).1).2) :=
  rfl

theorem enqueueMessage_spec (st : EngineState) (h : Nat) (m : Msg) :
    (enqueueMessage st h m).1.queue = st.queue ++ [⟨some h, some m, false⟩]
  ∧ (enqueueMessage st h m).2 = [Event.enq h m]
  ∧ (enqueueMessage st h m).1.hooks = st.hooks
  ∧ (enqueueMessage st h m).1.flushGuard = st.flushGuard
  ∧ (enqueueMessage st h m).1.dirty = st.dirty
  ∧ (enqueueMessage st h m).1.cleanupScheduled = st.cleanupScheduled := by
  by_cases hp : st.pending.isSome = true <;> simp [enqueueMessage, hp]

theorem enqueueMessage_pending_some (st : EngineState) (h : Nat) (m : Msg) (j : Nat)
    (hp : st.pending = some j) :
    (enqueueMessage st h m).1.pending = some j ∧
    (enqueueMessage st h m).1.nextHandle = st.nextHandle := by
  simp [enqueueMessage, hp]

theorem enqueueMessage_pending_none (st : EngineState) (h : Nat) (m : Msg)
    (hp : st.pending = none) :
    (enqueueMessage st h m).1.pending = some st.nextHandle ∧
    (enqueueMessage st h m).1.nextHandle = st.nextHandle + 1 := by
  simp [enqueueMessage, hp]

theorem postMessage_nonConf (env : Env) (st : EngineState) (h : Nat) (m : Msg)
    (hm : m.isConflatable = false) :
    postMessage env st h m = enqueueMessage st h m := by
  simp [postMessage, hm]

theorem applyPosts_spec (env : Env) : ∀ (ps : List (Nat × Msg)) (st : EngineState),
    (∀ p ∈ ps, p.2.isConflatable = false) →
    (applyPosts env ps st).1.queue = st.queue ++ enqueues (applyPosts env ps st).2
  ∧ (∀ ev ∈ (applyPosts env ps st).2, ∃ a b, ev = Event.enq a b)
  ∧ (applyPosts env ps st).1.hooks = st.hooks
  ∧ (applyPosts env ps st).1.flushGuard = st.flushGuard := by
  intro ps
  induction ps with
  | nil =>
    intro st _
    refine ⟨?_, ?_, rfl, rfl⟩
    · simp [applyPosts, enqueues]
    · intro ev hev; simp [applyPosts] at hev
  | cons p rest ih =>
    intro st hps
    have hp0 : p.2.isConflatable = false := hps p (List.mem_cons_self p rest)
    have hpost := postMessage_nonConf env st p.1 p.2 hp0
    have hen := enqueueMessage_spec st p.1 p.2
    have ihh := ih (postMessage env st p.1 p.2).1
      (fun q hq => hps q (List.mem_cons_of_mem _ hq))
    rw [applyPosts_cons]
    constructor
    · dsimp only
      rw [enqueues_append, ihh.1, hpost, hen.1, hen.2.1]
      simp [enqueues]
    constructor
    · intro ev hev
      rcases List.mem_append.mp hev with hl | hr
      · rw [hpost, hen.2.1] at hl
        rcases List.mem_singleton.mp hl with rfl
        exact ⟨p.1, p.2, rfl⟩
      · exact ihh.2.1 ev hr
    constructor
    · dsimp only
      rw [ihh.2.2.1, hpost, hen.2.2.1]
    · dsimp only
      rw [ihh.2.2.2, hpost, hen.2.2.2.1]

theorem count_eq_zero_of_enq (l : List Event) (ev : Event)
    (hl : ∀ x ∈ l, ∃ a b, x = Event.enq a b)
    (hne : ∀ a b, ev ≠ Event.enq a b) : l.count ev = 0 := by
  refine List.count_eq_zero.mpr ?_
  intro hmem
  obtain ⟨a, b, hab⟩ := hl ev hmem
  exact hne a b hab

theorem invokeHandler_eq_none (env : Env) (st : EngineState) (h : Nat) (m : Msg)
    (hpr : (env.procBeh h m).2 = none) :
    invokeHandler env st h m =
      ((applyPosts env (env.procBeh h m).1 st).1,
       Event.process h m :: (applyPosts env (env.procBeh h m).1 st).2, none) := by
  simp only [invokeHandler, hpr]

theorem invokeHandler_eq_exn (env : Env) (st : EngineState) (h : Nat) (m : Msg) (e : Nat)
    (hpr : (env.procBeh h m).2 = some e) (he : env.exnBeh e = none) :
    invokeHandler env st h m =
      ((applyPosts env (env.procBeh h m).1 st).1,
       (Event.process h m :: (applyPosts env (env.procBeh h m).1 st).2) ++
         [Event.exnHandled e], none) := by
  simp only [invokeHandler, hpr, he]

theorem invokeHandler_eq_prop (env : Env) (st : EngineState) (h : Nat) (m : Msg) (e e2 : Nat)
    (hpr : (env.procBeh h m).2 = some e) (he : env.exnBeh e = some e2) :
    invokeHandler env st h m =
      ((applyPosts env (env.procBeh h m).1 st).1,
       Event.process h m :: (applyPosts env (env.procBeh h m).1 st).2, some e2) := by
  simp only [invokeHandler, hpr, he]

theorem invokeHandler_spec (env : Env) (st : EngineState) (h : Nat) (m : Msg)
    (H1 : ∀ p ∈ (env.procBeh h m).1, p.2.isConflatable = false)
    (H2 : ∀ e, env.exnBeh e = none) :
    (invokeHandler env st h m).2.2 = none
  ∧ (invokeHandler env st h m).1.queue = st.queue ++ enqueues (invokeHandler env st h m).2.1
  ∧ (invokeHandler env st h m).1.hooks = st.hooks
  ∧ (invokeHandler env st h m).1.flushGuard = st.flushGuard
  ∧ (∀ ev ∈ (invokeHandler env st h m).2.1,
       ev = Event.process h m ∨ (∃ a b, ev = Event.enq a b) ∨ (∃ e, ev = Event.exnHandled e)) := by
  have hap := applyPosts_spec env (env.procBeh h m).1 st H1
  cases hpr : (env.procBeh h m).2 with
  | none =>
    rw [invokeHandler_eq_none env st h m hpr]
    refine ⟨rfl, ?_, hap.2.2.1, hap.2.2.2, ?_⟩
    · have he : enqueues (Event.process h m :: (applyPosts env (env.procBeh h m).1 st).2) =
          enqueues (applyPosts env (env.procBeh h m).1 st).2 := by
        simp [enqueues]
      rw [he]; exact hap.1
    · intro ev hev
      rcases List.mem_cons.mp hev with rfl | hev
      · exact Or.inl rfl
      · exact Or.inr (Or.inl (hap.2.1 ev hev))
  | some e =>
    rw [invokeHandler_eq_exn env st h m e hpr (H2 e)]
    refine ⟨rfl, ?_, hap.2.2.1, hap.2.2.2, ?_⟩
    · have he : enqueues ((Event.process h m :: (applyPosts env (env.procBeh h m).1 st).2) ++
          [Event.exnHandled e]) = enqueues (applyPosts env (env.procBeh h m).1 st).2 := by
        rw [enqueues_append]
        simp [enqueues]
      rw [he]; exact hap.1
    · intro ev hev
      rcases List.mem_append.mp hev with hl | hr
      · rcases List.mem_cons.mp hl with rfl | hl
        · exact Or.inl rfl
        · exact Or.inr (Or.inl (hap.2.1 ev hl))
      · rcases List.mem_singleton.mp hr with rfl
        exact Or.inr (Or.inr ⟨e, rfl⟩)

/-! ### Hook-chain lemmas -/

theorem invokeHook_events (env : Env) (st : EngineState) (k h : Nat) (m : Msg) :
    ∀ ev ∈ (invokeHook env st k h m).2.1,
      (∃ j, ev = Event.hookRun j) ∨ (∃ e, ev = Event.exnHandled e) := by
  intro ev hev
  cases hb : (env.hookBeh k h m).beh with
  | ret b =>
    simp only [invokeHook, hb] at hev
    rcases List.mem_singleton.mp hev with rfl
    exact Or.inl ⟨k, rfl⟩
  | thrw e =>
    cases he : env.exnBeh e with
    | none =>
      simp only [invokeHook, hb, he] at hev
      rcases List.mem_cons.mp hev with rfl | hev
      · exact Or.inl ⟨k, rfl⟩
      · rcases List.mem_singleton.mp hev with rfl
        exact Or.inr ⟨e, rfl⟩
    | some e2 =>
      simp only [invokeHook, hb, he] at hev
      rcases List.mem_singleton.mp hev with rfl
      exact Or.inl ⟨k, rfl⟩

theorem invokeHook_ok (env : Env) (st : EngineState) (k h : Nat) (m : Msg)
    (H2 : ∀ e, env.exnBeh e = none) :
    ∃ b, (invokeHook env st k h m).2.2 = Except.ok b := by
  cases hb : (env.hookBeh k h m).beh with
  | ret b => exact ⟨b, by simp only [invokeHook, hb]⟩
  | thrw e => exact ⟨true, by simp only [invokeHook, hb, H2 e]⟩

theorem runHooksDown_events (env : Env) (h : Nat) (m : Msg) : ∀ (i : Nat) (st : EngineState),
    ∀ ev ∈ (runHooksDown env h m i st).2.1,
      (∃ j, ev = Event.hookRun j) ∨ (∃ e, ev = Event.exnHandled e) := by
  intro i
  induction i with
  | zero => intro st ev hev; simp [runHooksDown] at hev
  | succ i ih =>
    intro st ev hev
    rw [runHooksDown] at hev
    revert hev
    split
    · exact fun hev => ih st ev hev
    · rename_i k hk
      split
      · rename_i st1 evs heq
        intro hev
        dsimp only at hev
        rcases List.mem_append.mp hev with hl | hr
        · have := invokeHook_events env st k h m ev
          rw [heq] at this
          exact this hl
        · exact ih st1 ev hr
      · rename_i st1 evs heq
        intro hev
        have := invokeHook_events env st k h m ev
        rw [heq] at this
        exact this hev
      · rename_i st1 evs e heq
        intro hev
        have := invokeHook_events env st k h m ev
        rw [heq] at this
        exact this hev

theorem runHooksDown_ok (env : Env) (h : Nat) (m : Msg)
    (H2 : ∀ e, env.exnBeh e = none) : ∀ (i : Nat) (st : EngineState),
    ∃ b, (runHooksDown env h m i st).2.2 = Except.ok b := by
  intro i
  induction i with
  | zero => intro st; exact ⟨true, rfl⟩
  | succ i ih =>
    intro st
    rw [runHooksDown]
    split
    · exact ih st
    · rename_i k hk
      split
      · rename_i st1 evs heq
        exact ih st1
      · exact ⟨false, rfl⟩
      · rename_i st1 evs e heq
        obtain ⟨b, hb⟩ := invokeHook_ok env st k h m H2
        rw [heq] at hb
        exact absurd hb (by simp)

theorem enqueues_eq_nil (l : List Event)
    (hl : ∀ ev ∈ l, (∃ j, ev = Event.hookRun j) ∨ (∃ e, ev = Event.exnHandled e)) :
    enqueues l = [] := by
  induction l with
  | nil => rfl
  | cons x xs ih =>
    have hx := hl x (List.mem_cons_self x xs)
    have hxs := ih (fun ev hev => hl ev (List.mem_cons_of_mem _ hev))
    rcases hx with ⟨j, rfl⟩ | ⟨e, rfl⟩
    · simpa [enqueues] using hxs
    · simpa [enqueues] using hxs

/-! ### `sendMessage` branch equations -/

theorem sendMessage_eq_noHooks (env : Env) (st : EngineState) (h : Nat) (m : Msg)
    (hl : lookupHooks st.hooks h = none) :
    sendMessage env st h m = invokeHandler env st h m := by
  simp only [sendMessage, hl]

theorem sendMessage_eq_empty (env : Env) (st : EngineState) (h : Nat) (m : Msg)
    (arr : List (Option Nat)) (hl : lookupHooks st.hooks h = some arr)
    (ha : arr.length = 0) :
    sendMessage env st h m = invokeHandler env st h m := by
  simp only [sendMessage, hl, ha, if_pos]

theorem sendMessage_eq_run_true (env : Env) (st st1 : EngineState) (h : Nat) (m : Msg)
    (arr : List (Option Nat)) (evs : List Event)
    (hl : lookupHooks st.hooks h = some arr) (ha : arr.length ≠ 0)
    (hrun : runHooksDown env h m arr.length st = (st1, evs, Except.ok true)) :
    sendMessage env st h m =
      ((invokeHandler env st1 h m).1, evs ++ (invokeHandler env st1 h m).2.1,
       (invokeHandler env st1 h m).2.2) := by
  simp only [sendMessage, hl, if_neg ha, hrun]

theorem sendMessage_eq_run_false (env : Env) (st st1 : EngineState) (h : Nat) (m : Msg)
    (arr : List (Option Nat)) (evs : List Event)
    (hl : lookupHooks st.hooks h = some arr) (ha : arr.length ≠ 0)
    (hrun : runHooksDown env h m arr.length st = (st1, evs, Except.ok false)) :
    sendMessage env st h m = (st1, evs, none) := by
  simp only [sendMessage, hl, if_neg ha, hrun]

theorem sendMessage_eq_run_error (env : Env) (st st1 : EngineState) (h : Nat) (m : Msg)
    (arr : List (Option Nat)) (evs : List Event) (e : Nat)
    (hl : lookupHooks st.hooks h = some arr) (ha : arr.length ≠ 0)
    (hrun : runHooksDown env h m arr.length st = (st1, evs, Except.error e)) :
    sendMessage env st h m = (st1, evs, some e) := by
  simp only [sendMessage, hl, if_neg ha, hrun]

/-! ### `sendMessage` under a well-behaved environment -/

theorem sendMessage_spec (env : Env) (st : EngineState) (h : Nat) (m : Msg)
    (H1 : ∀ h2 m2 p, p ∈ (env.procBeh h2 m2).1 → p.2.isConflatable = false)
    (H2 : ∀ e, env.exnBeh e = none) :
    (sendMessage env st h m).2.2 = none
  ∧ (sendMessage env st h m).1.queue = st.queue ++ enqueues (sendMessage env st h m).2.1
  ∧ (∀ ev ∈ (sendMessage env st h m).2.1,
       ev = Event.process h m ∨ (∃ a b, ev = Event.enq a b) ∨
       (∃ j, ev = Event.hookRun j) ∨ (∃ e, ev = Event.exnHandled e)) := by
  have hIH : ∀ st' : EngineState,
      (invokeHandler env st' h m).2.2 = none
    ∧ (invokeHandler env st' h m).1.queue = st'.queue ++ enqueues (invokeHandler env st' h m).2.1
    ∧ (∀ ev ∈ (invokeHandler env st' h m).2.1,
         ev = Event.process h m ∨ (∃ a b, ev = Event.enq a b) ∨
         (∃ j, ev = Event.hookRun j) ∨ (∃ e, ev = Event.exnHandled e)) := by
    intro st'
    have hs := invokeHandler_spec env st' h m (fun p hp => H1 h m p hp) H2
    exact ⟨hs.1, hs.2.1, fun ev hev => by
      rcases hs.2.2.2.2 ev hev with h1 | h2 | h3
      · exact Or.inl h1
      · exact Or.inr (Or.inl h2)
      · exact Or.inr (Or.inr (Or.inr h3))⟩
  cases hl : lookupHooks st.hooks h with
  | none =>
    rw [sendMessage_eq_noHooks env st h m hl]
    exact hIH st
  | some arr =>
    by_cases ha : arr.length = 0
    · rw [sendMessage_eq_empty env st h m arr hl ha]
      exact hIH st
    · obtain ⟨b, hb⟩ := runHooksDown_ok env h m H2 arr.length st
      rcases hrun : runHooksDown env h m arr.length st with ⟨st1, evs, r⟩
      rw [hrun] at hb
      dsimp only at hb
      subst hb
      have hfr := runHooksDown_frame env h m arr.length st
      rw [hrun] at hfr
      have hevs : ∀ ev ∈ evs, (∃ j, ev = Event.hookRun j) ∨ (∃ e, ev = Event.exnHandled e) := by
        intro ev hev
        have := runHooksDown_events env h m arr.length st ev
        rw [hrun] at this
        exact this hev
      have henq : enqueues evs = [] := enqueues_eq_nil evs hevs
      cases b with
      | true =>
        rw [sendMessage_eq_run_true env st st1 h m arr evs hl ha hrun]
        have hi := hIH st1
        refine ⟨hi.1, ?_, ?_⟩
        · dsimp only
          rw [enqueues_append, henq, hi.2.1, hfr.1]
          simp
        · intro ev hev
          dsimp only at hev
          rcases List.mem_append.mp hev with hlm | hrm
          · rcases hevs ev hlm with h1 | h2
            · exact Or.inr (Or.inr (Or.inl h1))
            · exact Or.inr (Or.inr (Or.inr h2))
          · exact hi.2.2 ev hrm
      | false =>
        rw [sendMessage_eq_run_false env st st1 h m arr evs hl ha hrun]
        refine ⟨rfl, ?_, ?_⟩
        · rw [henq, hfr.1]; simp
        · intro ev hev
          rcases hevs ev hev with h1 | h2
          · exact Or.inr (Or.inr (Or.inl h1))
          · exact Or.inr (Or.inr (Or.inr h2))

/-! ### Loop-run equations and trace helpers -/

theorem runLoopFuel_nil (env : Env) (n : Nat) (st : EngineState) (hq : st.queue = []) :
    runLoopFuel env (n + 1) st = (st, [], none) := by
  simp [runLoopFuel, hq]

theorem runLoopFuel_sent (env : Env) (n : Nat) (st : EngineState) (e : QueueEntry)
    (rest : List QueueEntry) (hq : st.queue = e :: rest) (hs : e.sent = true) :
    runLoopFuel env (n + 1) st = ({ st with queue := rest }, [], none) := by
  simp [runLoopFuel, hq, hs]

theorem runLoopFuel_skip_h (env : Env) (n : Nat) (st : EngineState) (e : QueueEntry)
    (rest : List QueueEntry) (hq : st.queue = e :: rest) (hs : e.sent = false)
    (hh : e.handler = none) :
    runLoopFuel env (n + 1) st = runLoopFuel env n { st with queue := rest } := by
  simp [runLoopFuel, hq, hs, hh]

theorem runLoopFuel_skip_m (env : Env) (n : Nat) (st : EngineState) (e : QueueEntry)
    (rest : List QueueEntry) (hd : Nat) (hq : st.queue = e :: rest) (hs : e.sent = false)
    (hh : e.handler = some hd) (hm : e.msg = none) :
    runLoopFuel env (n + 1) st = runLoopFuel env n { st with queue := rest } := by
  simp [runLoopFuel, hq, hs, hh, hm]

theorem runLoopFuel_live (env : Env) (n : Nat) (st st2 : EngineState) (e : QueueEntry)
    (rest : List QueueEntry) (hd : Nat) (m : Msg) (evs : List Event)
    (hq : st.queue = e :: rest) (hs : e.sent = false)
    (hh : e.handler = some hd) (hm : e.msg = some m)
    (hsend : sendMessage env { st with queue := rest } hd m = (st2, evs, none)) :
    runLoopFuel env (n + 1) st =
      ((runLoopFuel env n st2).1,
       (Event.dispatchE hd m :: evs) ++ (runLoopFuel env n st2).2.1,
       (runLoopFuel env n st2).2.2) := by
  simp [runLoopFuel, hq, hs, hh, hm, hsend]

theorem runLoopFuel_live_err (env : Env) (n : Nat) (st st2 : EngineState) (e : QueueEntry)
    (rest : List QueueEntry) (hd : Nat) (m : Msg) (evs : List Event) (ex : Nat)
    (hq : st.queue = e :: rest) (hs : e.sent = false)
    (hh : e.handler = some hd) (hm : e.msg = some m)
    (hsend : sendMessage env { st with queue := rest } hd m = (st2, evs, some ex)) :
    runLoopFuel env (n + 1) st = (st2, Event.dispatchE hd m :: evs, some ex) := by
  simp [runLoopFuel, hq, hs, hh, hm, hsend]

theorem dispatches_cons_d (h : Nat) (m : Msg) (l : List Event) :
    dispatches (Event.dispatchE h m :: l) = (h, m) :: dispatches l := by
  simp [dispatches]

theorem enqueues_cons_d (h : Nat) (m : Msg) (l : List Event) :
    enqueues (Event.dispatchE h m :: l) = enqueues l := by
  simp [enqueues]

theorem dispatches_eq_nil (h : Nat) (m : Msg) (l : List Event)
    (hl : ∀ ev ∈ l, ev = Event.process h m ∨ (∃ a b, ev = Event.enq a b) ∨
          (∃ j, ev = Event.hookRun j) ∨ (∃ e, ev = Event.exnHandled e)) :
    dispatches l = [] := by
  induction l with
  | nil => rfl
  | cons x xs ih =>
    have hx := hl x (List.mem_cons_self x xs)
    have hxs := ih (fun ev hev => hl ev (List.mem_cons_of_mem _ hev))
    rcases hx with rfl | ⟨a, b, rfl⟩ | ⟨j, rfl⟩ | ⟨e, rfl⟩ <;>
      simpa [dispatches] using hxs

theorem liveEntries_cons_live (e : QueueEntry) (l : List QueueEntry) (hd : Nat) (m : Msg)
    (hh : e.handler = some hd) (hm : e.msg = some m) (hs : e.sent = false) :
    liveEntries (e :: l) = (hd, m) :: liveEntries l := by
  simp [liveEntries, hh, hm, hs]

theorem liveEntries_cons_skip_h (e : QueueEntry) (l : List QueueEntry)
    (hh : e.handler = none) : liveEntries (e :: l) = liveEntries l := by
  simp [liveEntries, hh]

theorem liveEntries_cons_skip_m (e : QueueEntry) (l : List QueueEntry) (hd : Nat)
    (hh : e.handler = some hd) (hm : e.msg = none) :
    liveEntries (e :: l) = liveEntries l := by
  simp [liveEntries, hh, hm]

/-! ### The main loop-run lemma: a run is bounded by the sentinel -/

theorem runLoopFuel_spec (env : Env)
    (H1 : ∀ h2 m2 p, p ∈ (env.procBeh h2 m2).1 → p.2.isConflatable = false)
    (H2 : ∀ e, env.exnBeh e = none) :
    ∀ (pre : List QueueEntry) (n : Nat) (st : EngineState) (post : List QueueEntry),
    st.queue = pre ++ sentinelE :: post →
    (∀ e ∈ pre, e.sent = false) →
    pre.length < n →
    (runLoopFuel env n st).2.2 = none
  ∧ dispatches (runLoopFuel env n st).2.1 = liveEntries pre
  ∧ (runLoopFuel env n st).1.queue = post ++ enqueues (runLoopFuel env n st).2.1
  ∧ (∀ h' m', Event.process h' m' ∈ (runLoopFuel env n st).2.1 →
       ∃ p ∈ liveEntries pre, p.1 = h') := by
  intro pre
  induction pre with
  | nil =>
    intro n st post hq _ hn
    cases n with
    | zero => omega
    | succ n' =>
      rw [runLoopFuel_sent env n' st sentinelE post (by simpa using hq) rfl]
      refine ⟨rfl, rfl, by simp [enqueues, liveEntries], ?_⟩
      intro h' m' hmem
      simp at hmem
  | cons e pre' ih =>
    intro n st post hq hsent hn
    cases n with
    | zero => omega
    | succ n' =>
      have hs : e.sent = false := hsent e (List.mem_cons_self e pre')
      have hn' : pre'.length < n' := by
        simp only [List.length_cons] at hn; omega
      have hq' : st.queue = e :: (pre' ++ sentinelE :: post) := by simpa using hq
      have hsent' : ∀ x ∈ pre', x.sent = false :=
        fun x hx => hsent x (List.mem_cons_of_mem _ hx)
      cases hh : e.handler with
      | none =>
        rw [runLoopFuel_skip_h env n' st e _ hq' hs hh,
            liveEntries_cons_skip_h e pre' hh]
        exact ih n' { st with queue := pre' ++ sentinelE :: post } post rfl hsent' hn'
      | some hd =>
        cases hm : e.msg with
        | none =>
          rw [runLoopFuel_skip_m env n' st e _ hd hq' hs hh hm,
              liveEntries_cons_skip_m e pre' hd hh hm]
          exact ih n' { st with queue := pre' ++ sentinelE :: post } post rfl hsent' hn'
        | some m =>
          have hsp := sendMessage_spec env { st with queue := pre' ++ sentinelE :: post } hd m H1 H2
          rcases hsend : sendMessage env { st with queue := pre' ++ sentinelE :: post } hd m
            with ⟨st2, evs, r⟩
          rw [hsend] at hsp
          dsimp only at hsp
          have hr : r = none := hsp.1
          subst hr
          rw [runLoopFuel_live env n' st st2 e _ hd m evs hq' hs hh hm hsend]
          have hq2 : st2.queue = pre' ++ sentinelE :: (post ++ enqueues evs) := by
            rw [hsp.2.1]
            simp [List.append_assoc]
          have hIH := ih n' st2 (post ++ enqueues evs) hq2 hsent' hn'
          have hdnil : dispatches evs = [] := by
            refine dispatches_eq_nil hd m evs ?_
            intro ev hev
            exact hsp.2.2 ev hev
          refine ⟨hIH.1, ?_, ?_, ?_⟩
          · dsimp only
            rw [dispatches_append, dispatches_cons_d, hdnil,
                liveEntries_cons_live e pre' hd m hh hm hs, hIH.2.1]
            simp
          · dsimp only
            rw [enqueues_append, enqueues_cons_d, hIH.2.2.1]
            simp [List.append_assoc]
          · intro h' m' hmem
            dsimp only at hmem
            rw [liveEntries_cons_live e pre' hd m hh hm hs]
            rcases List.mem_append.mp hmem with hlm | hrm
            · rcases List.mem_cons.mp hlm with hcd | hlm
              · exact absurd hcd (by simp)
              · rcases hsp.2.2 _ hlm with hcp | ⟨a, b, hab⟩ | ⟨j, hj⟩ | ⟨ex, hex⟩
                · have : h' = hd := by
                    injection hcp
                  exact ⟨(hd, m), List.mem_cons_self _ _, this.symm⟩
                · exact absurd hab (by simp)
                · exact absurd hj (by simp)
                · exact absurd hex (by simp)
            · obtain ⟨p, hp, hph⟩ := hIH.2.2.2 h' m' hrm
              exact ⟨p, List.mem_cons_of_mem _ hp, hph⟩

/-! ### `runMessageLoop` equations and specification -/

theorem runMessageLoop_empty (env : Env) (st : EngineState) (hq : st.queue = []) :
    runMessageLoop env st = ({ st with pending := none }, [], none) := by
  simp [runMessageLoop, hq]

theorem runMessageLoop_run (env : Env) (st : EngineState) (hq : st.queue ≠ []) :
    runMessageLoop env st =
      runLoopFuel env (st.queue.length + 1)
        { st with pending := none, queue := st.queue ++ [sentinelE] } := by
  simp [runMessageLoop, hq]

theorem runMessageLoop_spec (env : Env) (st : EngineState)
    (H0 : ∀ e ∈ st.queue, e.sent = false)
    (H1 : ∀ h2 m2 p, p ∈ (env.procBeh h2 m2).1 → p.2.isConflatable = false)
    (H2 : ∀ e, env.exnBeh e = none) :
    (runMessageLoop env st).2.2 = none
  ∧ dispatches (runMessageLoop env st).2.1 = liveEntries st.queue
  ∧ (runMessageLoop env st).1.queue = enqueues (runMessageLoop env st).2.1
  ∧ (∀ h' m', Event.process h' m' ∈ (runMessageLoop env st).2.1 →
       ∃ p ∈ liveEntries st.queue, p.1 = h') := by
  by_cases hq : st.queue = []
  · rw [runMessageLoop_empty env st hq]
    refine ⟨rfl, ?_, ?_, ?_⟩
    · rw [hq]; simp [dispatches, liveEntries]
    · simp [enqueues, hq]
    · intro h' m' hmem
      simp at hmem
  · rw [runMessageLoop_run env st hq]
    have hqs : ({ st with pending := none, queue := st.queue ++ [sentinelE] } :
        EngineState).queue = st.queue ++ sentinelE :: [] := by simp
    have hmain := runLoopFuel_spec env H1 H2 st.queue (st.queue.length + 1)
      { st with pending := none, queue := st.queue ++ [sentinelE] } [] hqs H0
      (Nat.lt_succ_self _)
    refine ⟨hmain.1, hmain.2.1, ?_, hmain.2.2.2⟩
    have := hmain.2.2.1
    simpa using this

/-! ### `clearData` lemmas -/

theorem clearData_queue (st : EngineState) (h : Nat) :
    (clearData st h).queue = st.queue.map (invalidateFor h) := by
  unfold clearData
  split
  · rfl
  · split
    · rfl
    · rfl

theorem clearData_hooks_tomb (st : EngineState) (h : Nat) :
    ∀ arr, lookupHooks (clearData st h).hooks h = some arr → ∀ s ∈ arr, s = none := by
  intro arr harr s hs
  rw [show (clearData st h).hooks =
      (match lookupHooks st.hooks h with
       | none => st
       | some a =>
         if a.length = 0 then st
         else scheduleCleanup { st with hooks := setHooks st.hooks h (a.map (fun _ => none)) } h).hooks
      from rfl] at harr
  revert harr
  split
  · rename_i hl
    intro harr
    rw [hl] at harr
    cases harr
  · rename_i a hl
    split
    · rename_i hlen
      intro harr
      rw [hl] at harr
      injection harr with harr
      subst harr
      rw [List.length_eq_zero] at hlen
      subst hlen
      cases hs
    · rename_i hlen
      intro harr
      have : lookupHooks (setHooks st.hooks h (a.map (fun _ => none))) h =
          some (a.map (fun _ => none)) := lookup_setHooks_self _ _ _
      rw [show (scheduleCleanup { st with hooks := setHooks st.hooks h (a.map (fun _ => none)) } h).hooks
          = setHooks st.hooks h (a.map (fun _ => none)) from rfl] at harr
      rw [this] at harr
      injection harr with harr
      subst harr
      rcases List.mem_map.mp hs with ⟨x, _, hx⟩
      exact hx.symm

theorem clearData_no_owner (st : EngineState) (h : Nat) :
    ∀ e ∈ (clearData st h).queue, e.handler ≠ some h := by
  intro e he
  rw [clearData_queue] at he
  rcases List.mem_map.mp he with ⟨x, _, hx⟩
  subst hx
  unfold invalidateFor
  split
  · simp
  · rename_i hxh
    simpa using hxh

theorem clearData_sent (st : EngineState) (h : Nat)
    (H0 : ∀ e ∈ st.queue, e.sent = false) :
    ∀ e ∈ (clearData st h).queue, e.sent = false := by
  intro e he
  rw [clearData_queue] at he
  rcases List.mem_map.mp he with ⟨x, hxm, hx⟩
  subst hx
  unfold invalidateFor
  split
  · exact H0 x hxm
  · exact H0 x hxm

theorem liveEntries_mem (q : List QueueEntry) (p : Nat × Msg) (hp : p ∈ liveEntries q) :
    ∃ e ∈ q, e.handler = some p.1 ∧ e.msg = some p.2 ∧ e.sent = false := by
  rcases List.mem_filterMap.mp hp with ⟨e, he, hf⟩
  refine ⟨e, he, ?_⟩
  cases hh : e.handler with
  | none => simp [hh] at hf
  | some hd =>
    cases hm : e.msg with
    | none => simp [hh, hm] at hf
    | some m =>
      cases hs : e.sent with
      | false =>
        simp [hh, hm, hs] at hf
        cases hf
        exact ⟨rfl, rfl, rfl⟩
      | true => simp [hh, hm, hs] at hf

/-- C3: a loop run processes exactly the entries present in the queue at the
moment the run began (bounded by the sentinel appended at run start): it
returns no exception, it dispatches precisely the live entries of the
initial queue in enqueue order, every entry enqueued during the run — and
nothing else — is left in the queue for the next run, and an empty queue
makes the run return immediately (no sentinel is appended: the resulting
queue is still empty and nothing runs). -/
theorem c3_loop_run_sentinel_bounded (env : Env) (st : EngineState)
    (H0 : ∀ e ∈ st.queue, e.sent = false)
    (H1 : ∀ h2 m2 p, p ∈ (env.procBeh h2 m2).1 → p.2.isConflatable = false)
    (H2 : ∀ e, env.exnBeh e = none) :
    (st.queue = [] → runMessageLoop env st = ({ st with pending := none }, [], none))
  ∧ (runMessageLoop env st).2.2 = none
  ∧ dispatches (runMessageLoop env st).2.1 = liveEntries st.queue
  ∧ (runMessageLoop env st).1.queue = enqueues (runMessageLoop env st).2.1 := by
  have hs := runMessageLoop_spec env st H0 H1 H2
  exact ⟨fun hq => runMessageLoop_empty env st hq, hs.1, hs.2.1, hs.2.2.1⟩

/-- C5: after `clearData(handler)` every queue entry belonging to that handler
has both fields nulled in place (the queue keeps its length — entries are not
physically removed), every slot of the handler's hook list is tombstoned, and
a subsequent loop run delivers zero messages to that handler. -/
theorem c5_clearData_silences (env : Env) (st : EngineState) (h : Nat)
    (H0 : ∀ e ∈ st.queue, e.sent = false)
    (H1 : ∀ h2 m2 p, p ∈ (env.procBeh h2 m2).1 → p.2.isConflatable = false)
    (H2 : ∀ e, env.exnBeh e = none) :
    (clearData st h).queue.length = st.queue.length
  ∧ (∀ i e, st.queue.get? i = some e → e.handler = some h →
       (clearData st h).queue.get? i = some ⟨none, none, e.sent⟩)
  ∧ (∀ i e, st.queue.get? i = some e → e.handler ≠ some h →
       (clearData st h).queue.get? i = some e)
  ∧ (∀ arr, lookupHooks (clearData st h).hooks h = some arr → ∀ s ∈ arr, s = none)
  ∧ (∀ m', Event.process h m' ∉ (runMessageLoop env (clearData st h)).2.1) := by
  refine ⟨?_, ?_, ?_, clearData_hooks_tomb st h, ?_⟩
  · rw [clearData_queue]; simp
  · intro i e hi he
    rw [clearData_queue, List.get?_map, hi]
    simp [invalidateFor, he]
  · intro i e hi he
    rw [clearData_queue, List.get?_map, hi]
    simp [invalidateFor, he]
  · intro m' hmem
    have hs := runMessageLoop_spec env (clearData st h) (clearData_sent st h H0) H1 H2
    obtain ⟨p, hp, hph⟩ := hs.2.2.2 h m' hmem
    obtain ⟨e, he, heh, _, _⟩ := liveEntries_mem _ p hp
    have hno := clearData_no_owner st h e he
    rw [hph] at heh
    exact hno heh

/-! ### Event classification for posts (no hypotheses) -/

theorem scanConflate_events (env : Env) (h : Nat) (m : Msg) : ∀ q : List QueueEntry,
    ∀ ev ∈ (scanConflate env h m q).2.2, ∃ t i a, ev = Event.confCall t i a := by
  intro q
  induction q with
  | nil => intro ev hev; simp [scanConflate] at hev
  | cons e rest ih =>
    intro ev hev
    rw [scanConflate] at hev
    revert hev
    split
    · exact fun hev => ih ev hev
    · split
      · exact fun hev => ih ev hev
      · rename_i pm hpm
        split
        · exact fun hev => ih ev hev
        · dsimp only
          split
          · intro hev
            rcases List.mem_singleton.mp hev with rfl
            exact ⟨pm, m, true, rfl⟩
          · intro hev
            rcases List.mem_cons.mp hev with rfl | hev
            · exact ⟨pm, m, false, rfl⟩
            · exact ih ev hev

theorem postMessage_events (env : Env) (st : EngineState) (h : Nat) (m : Msg) :
    ∀ ev ∈ (postMessage env st h m).2,
      (∃ a b, ev = Event.enq a b) ∨ (∃ t i a, ev = Event.confCall t i a) := by
  intro ev hev
  by_cases hc : m.isConflatable = false
  · rw [postMessage_nonConf env st h m hc, (enqueueMessage_spec st h m).2.1] at hev
    rcases List.mem_singleton.mp hev with rfl
    exact Or.inl ⟨h, m, rfl⟩
  · rw [postMessage] at hev
    rw [if_neg hc] at hev
    revert hev
    dsimp only
    split
    · exact fun hev => Or.inr (scanConflate_events env h m st.queue ev hev)
    · intro hev
      dsimp only at hev
      rcases List.mem_append.mp hev with hl | hr
      · exact Or.inr (scanConflate_events env h m st.queue ev hl)
      · rw [(enqueueMessage_spec _ h m).2.1] at hr
        rcases List.mem_singleton.mp hr with rfl
        exact Or.inl ⟨h, m, rfl⟩

theorem applyPosts_events (env : Env) : ∀ (ps : List (Nat × Msg)) (st : EngineState),
    ∀ ev ∈ (applyPosts env ps st).2,
      (∃ a b, ev = Event.enq a b) ∨ (∃ t i a, ev = Event.confCall t i a) := by
  intro ps
  induction ps with
  | nil => intro st ev hev; simp [applyPosts] at hev
  | cons p rest ih =>
    intro st ev hev
    rw [applyPosts_cons] at hev
    dsimp only at hev
    rcases List.mem_append.mp hev with hl | hr
    · exact postMessage_events env st p.1 p.2 ev hl
    · exact ih _ ev hr

theorem count_process_applyPosts (env : Env) (ps : List (Nat × Msg)) (st : EngineState)
    (h : Nat) (m : Msg) :
    ((applyPosts env ps st).2).count (Event.process h m) = 0 := by
  refine List.count_eq_zero.mpr ?_
  intro hmem
  rcases applyPosts_events env ps st _ hmem with ⟨a, b, hab⟩ | ⟨t, i, a, hc⟩
  · cases hab
  · cases hc

theorem invokeHandler_count_process (env : Env) (st : EngineState) (h : Nat) (m : Msg) :
    ((invokeHandler env st h m).2.1).count (Event.process h m) = 1 := by
  have hap := count_process_applyPosts env (env.procBeh h m).1 st h m
  cases hpr : (env.procBeh h m).2 with
  | none =>
    rw [invokeHandler_eq_none env st h m hpr]
    simp [List.count_cons, hap]
  | some e =>
    cases he : env.exnBeh e with
    | none =>
      rw [invokeHandler_eq_exn env st h m e hpr he]
      simp [List.count_append, List.count_cons, hap]
    | some e2 =>
      rw [invokeHandler_eq_prop env st h m e e2 hpr he]
      simp [List.count_cons, hap]

theorem count_process_map_hookRun (l : List Nat) (h : Nat) (m : Msg) :
    (l.map Event.hookRun).count (Event.process h m) = 0 := by
  refine List.count_eq_zero.mpr ?_
  intro hmem
  rcases List.mem_map.mp hmem with ⟨j, _, hj⟩
  cases hj

/-! ### Pure evaluation of the hook chain -/

theorem runHooksDown_pure_eval (env : Env) (h : Nat) (m : Msg) (st : EngineState)
    (arr : List (Option Nat)) (harr : lookupHooks st.hooks h = some arr)
    (hpure : ∀ k, (env.hookBeh k h m).removals = [])
    (hret : ∀ k, ∃ b, (env.hookBeh k h m).beh = HookBeh.ret b) :
    ∀ i, i ≤ arr.length →
    runHooksDown env h m i st =
      (st, (hookChain env h m ((arr.take i).reverse.filterMap id)).1.map Event.hookRun,
       Except.ok (hookChain env h m ((arr.take i).reverse.filterMap id)).2) := by
  intro i
  induction i with
  | zero => intro _; simp [runHooksDown, hookChain]
  | succ i ih =>
    intro hle
    have hlt : i < arr.length := hle
    have hg : ∃ s, arr[i]? = some s := ⟨arr[i], List.getElem?_eq_getElem hlt⟩
    obtain ⟨s, hgs⟩ := hg
    have htake : arr.take (i + 1) = arr.take i ++ [s] := by
      rw [List.take_succ, hgs]
      rfl
    have hrev : (arr.take (i + 1)).reverse = s :: (arr.take i).reverse := by
      rw [htake]
      simp
    have hread : readSlot st h i = s := by
      simp [readSlot, harr, List.getD, hgs]
    rw [runHooksDown, hread]
    cases s with
    | none =>
      have hfm : ((arr.take (i + 1)).reverse.filterMap id : List Nat) =
          (arr.take i).reverse.filterMap id := by
        rw [hrev]
        simp
      rw [hfm]
      exact ih (Nat.le_of_lt hlt)
    | some k =>
      have hfm : ((arr.take (i + 1)).reverse.filterMap id : List Nat) =
          k :: (arr.take i).reverse.filterMap id := by
        rw [hrev]
        simp
      rw [hfm]
      obtain ⟨b, hb⟩ := hret k
      have hik : invokeHook env st k h m = (st, [Event.hookRun k], Except.ok b) := by
        simp [invokeHook, hpure k, hb, applyRemovals]
      dsimp only
      rw [hik]
      cases b with
      | true =>
        dsimp only
        rw [ih (Nat.le_of_lt hlt)]
        rw [hookChain]
        rw [hb]
        simp
      | false =>
        dsimp only
        rw [hookChain]
        rw [hb]
        simp

/-- C1: `sendMessage` invokes the installed hooks newest-first, skipping
tombstoned (null) slots; the first hook returning false stops iteration —
no earlier-installed hook runs and `processMessage` is not invoked; when
the hook list is absent or empty, or every invoked hook returns true,
`processMessage` is invoked exactly once with that message.  The trace
equals the hook chain (`hookChain` walks the live hooks newest-first and
stops at the first false) followed by the handler invocation exactly when
the chain passed, and the `processMessage` count is one or zero
accordingly. -/
theorem c1_send_hooks_newest_first (env : Env) (st : EngineState) (h : Nat) (m : Msg)
    (hpure : ∀ k, (env.hookBeh k h m).removals = [])
    (hret : ∀ k, ∃ b, (env.hookBeh k h m).beh = HookBeh.ret b) :
    (sendMessage env st h m).2.1 =
      (hookChain env h m ((slotsOfD st h).reverse.filterMap id)).1.map Event.hookRun ++
      (if (hookChain env h m ((slotsOfD st h).reverse.filterMap id)).2
       then (invokeHandler env st h m).2.1 else [])
  ∧ (sendMessage env st h m).2.1.count (Event.process h m) =
      (if (hookChain env h m ((slotsOfD st h).reverse.filterMap id)).2 then 1 else 0) := by
  cases hl : lookupHooks st.hooks h with
  | none =>
    have hslots : slotsOfD st h = [] := by simp [slotsOfD, hl]
    rw [sendMessage_eq_noHooks env st h m hl, hslots]
    constructor
    · simp [hookChain]
    · simp [hookChain, invokeHandler_count_process env st h m]
  | some arr =>
    have hslots : slotsOfD st h = arr := by simp [slotsOfD, hl]
    by_cases ha : arr.length = 0
    · have harr : arr = [] := List.length_eq_zero.mp ha
      rw [sendMessage_eq_empty env st h m arr hl ha, hslots, harr]
      constructor
      · simp [hookChain]
      · simp [hookChain, invokeHandler_count_process env st h m]
    · have heval := runHooksDown_pure_eval env h m st arr hl hpure hret arr.length
        (Nat.le_refl _)
      rw [List.take_length] at heval
      rw [hslots]
      cases hpass : (hookChain env h m (arr.reverse.filterMap id)).2 with
      | true =>
        rw [hpass] at heval
        rw [sendMessage_eq_run_true env st st h m arr
          ((hookChain env h m (arr.reverse.filterMap id)).1.map Event.hookRun) hl ha heval]
        constructor
        · simp
        · dsimp only
          rw [List.count_append, count_process_map_hookRun,
            invokeHandler_count_process env st h m]
          simp
      | false =>
        rw [hpass] at heval
        rw [sendMessage_eq_run_false env st st h m arr
          ((hookChain env h m (arr.reverse.filterMap id)).1.map Event.hookRun) hl ha heval]
        constructor
        · simp
        · dsimp only
          rw [count_process_map_hookRun]
          simp

/-! ### Exception-erasure and `deThrow` equivalence -/

theorem eraseExn_append (a b : List Event) :
    eraseExn (a ++ b) = eraseExn a ++ eraseExn b := by
  simp [eraseExn]

theorem eraseExn_cons_hookRun (k : Nat) (l : List Event) :
    eraseExn (Event.hookRun k :: l) = Event.hookRun k :: eraseExn l := by
  simp [eraseExn]

theorem eraseExn_cons_exn (e : Nat) (l : List Event) :
    eraseExn (Event.exnHandled e :: l) = eraseExn l := by
  simp [eraseExn]

theorem eraseExn_cons_process (h : Nat) (m : Msg) (l : List Event) :
    eraseExn (Event.process h m :: l) = Event.process h m :: eraseExn l := by
  simp [eraseExn]

theorem eraseExn_no_exn (l : List Event)
    (hl : ∀ ev ∈ l, (∃ a b, ev = Event.enq a b) ∨ (∃ t i a, ev = Event.confCall t i a)) :
    eraseExn l = l := by
  induction l with
  | nil => rfl
  | cons x xs ih =>
    have hx := hl x (List.mem_cons_self x xs)
    have hxs := ih (fun ev hev => hl ev (List.mem_cons_of_mem _ hev))
    rcases hx with ⟨a, b, rfl⟩ | ⟨t, i, a, rfl⟩ <;> simp [eraseExn] at hxs ⊢ <;> exact hxs

theorem scanConflate_deThrow (env : Env) (h : Nat) (m : Msg) :
    ∀ q, scanConflate (deThrow env) h m q = scanConflate env h m q := by
  intro q
  induction q with
  | nil => rfl
  | cons e rest ih =>
    rw [scanConflate, scanConflate, ih]
    have hc : (deThrow env).conflate = env.conflate := rfl
    rw [hc]

theorem postMessage_deThrow (env : Env) (st : EngineState) (h : Nat) (m : Msg) :
    postMessage (deThrow env) st h m = postMessage env st h m := by
  unfold postMessage
  rw [scanConflate_deThrow]

theorem applyPosts_deThrow (env : Env) : ∀ (ps : List (Nat × Msg)) (st : EngineState),
    applyPosts (deThrow env) ps st = applyPosts env ps st := by
  intro ps
  induction ps with
  | nil => intro st; rfl
  | cons p rest ih =>
    intro st
    rw [applyPosts_cons, applyPosts_cons, postMessage_deThrow, ih]

theorem invokeHandler_deThrow (env : Env) (st : EngineState) (h : Nat) (m : Msg)
    (hexn : ∀ e, env.exnBeh e = none) :
    (invokeHandler (deThrow env) st h m).1 = (invokeHandler env st h m).1
  ∧ (invokeHandler (deThrow env) st h m).2.1 = eraseExn (invokeHandler env st h m).2.1
  ∧ (invokeHandler (deThrow env) st h m).2.2 = none
  ∧ (invokeHandler env st h m).2.2 = none := by
  have hcls := applyPosts_events env (env.procBeh h m).1 st
  have her : eraseExn (applyPosts env (env.procBeh h m).1 st).2 =
      (applyPosts env (env.procBeh h m).1 st).2 := by
    refine eraseExn_no_exn _ ?_
    intro ev hev
    exact hcls ev hev
  have hdl : invokeHandler (deThrow env) st h m =
      ((applyPosts env (env.procBeh h m).1 st).1,
       Event.process h m :: (applyPosts env (env.procBeh h m).1 st).2, none) := by
    have h0 := invokeHandler_eq_none (deThrow env) st h m rfl
    rw [applyPosts_deThrow] at h0
    have hpb : ((deThrow env).procBeh h m).1 = (env.procBeh h m).1 := rfl
    rw [hpb] at h0
    exact h0
  cases hpr : (env.procBeh h m).2 with
  | none =>
    rw [hdl, invokeHandler_eq_none env st h m hpr]
    refine ⟨rfl, ?_, rfl, rfl⟩
    rw [eraseExn_cons_process, her]
  | some e =>
    rw [hdl, invokeHandler_eq_exn env st h m e hpr (hexn e)]
    refine ⟨rfl, ?_, rfl, rfl⟩
    rw [eraseExn_append, eraseExn_cons_process, her]
    simp [eraseExn]

theorem runHooksDown_deThrow (env : Env) (h : Nat) (m : Msg)
    (hexn : ∀ e, env.exnBeh e = none) : ∀ (i : Nat) (st : EngineState),
    (runHooksDown (deThrow env) h m i st).1 = (runHooksDown env h m i st).1
  ∧ (runHooksDown (deThrow env) h m i st).2.1 = eraseExn (runHooksDown env h m i st).2.1
  ∧ (runHooksDown (deThrow env) h m i st).2.2 = (runHooksDown env h m i st).2.2 := by
  intro i
  induction i with
  | zero => intro st; exact ⟨rfl, rfl, rfl⟩
  | succ i ih =>
    intro st
    rw [runHooksDown, runHooksDown]
    cases hrs : readSlot st h i with
    | none => exact ih st
    | some k =>
      dsimp only
      cases hb : (env.hookBeh k h m).beh with
      | ret b =>
        have hikE : invokeHook env st k h m =
            (applyRemovals st (env.hookBeh k h m).removals, [Event.hookRun k], Except.ok b) := by
          simp [invokeHook, hb]
        have hikD : invokeHook (deThrow env) st k h m =
            (applyRemovals st (env.hookBeh k h m).removals, [Event.hookRun k], Except.ok b) := by
          simp [invokeHook, deThrow, hb]
        rw [hikE, hikD]
        cases b with
        | true =>
          dsimp only
          obtain ⟨ih1, ih2, ih3⟩ := ih (applyRemovals st (env.hookBeh k h m).removals)
          refine ⟨ih1, ?_, ih3⟩
          rw [ih2]
          simp [eraseExn_cons_hookRun]
        | false =>
          exact ⟨rfl, by rw [eraseExn_cons_hookRun]; rfl, rfl⟩
      | thrw e =>
        have he := hexn e
        have hikE : invokeHook env st k h m =
            (applyRemovals st (env.hookBeh k h m).removals,
             [Event.hookRun k, Event.exnHandled e], Except.ok true) := by
          simp [invokeHook, hb, he]
        have hikD : invokeHook (deThrow env) st k h m =
            (applyRemovals st (env.hookBeh k h m).removals,
             [Event.hookRun k], Except.ok true) := by
          simp [invokeHook, deThrow, hb]
        rw [hikE, hikD]
        dsimp only
        obtain ⟨ih1, ih2, ih3⟩ := ih (applyRemovals st (env.hookBeh k h m).removals)
        refine ⟨ih1, ?_, ih3⟩
        rw [ih2]
        have hstep : eraseExn ([Event.hookRun k, Event.exnHandled e] ++
            (runHooksDown env h m i (applyRemovals st (env.hookBeh k h m).removals)).2.1) =
            Event.hookRun k ::
            eraseExn (runHooksDown env h m i (applyRemovals st (env.hookBeh k h m).removals)).2.1 := by
          rw [show ([Event.hookRun k, Event.exnHandled e] ++
              (runHooksDown env h m i (applyRemovals st (env.hookBeh k h m).removals)).2.1) =
              Event.hookRun k :: Event.exnHandled e ::
              (runHooksDown env h m i (applyRemovals st (env.hookBeh k h m).removals)).2.1 from rfl]
          rw [eraseExn_cons_hookRun, eraseExn_cons_exn]
        rw [hstep]
        simp

theorem invokeHandler_noerr (env : Env) (st : EngineState) (h : Nat) (m : Msg)
    (hexn : ∀ e, env.exnBeh e = none) : (invokeHandler env st h m).2.2 = none := by
  cases hpr : (env.procBeh h m).2 with
  | none => rw [invokeHandler_eq_none env st h m hpr]
  | some e => rw [invokeHandler_eq_exn env st h m e hpr (hexn e)]

theorem sendMessage_noerr (env : Env) (st : EngineState) (h : Nat) (m : Msg)
    (hexn : ∀ e, env.exnBeh e = none) : (sendMessage env st h m).2.2 = none := by
  cases hl : lookupHooks st.hooks h with
  | none =>
    rw [sendMessage_eq_noHooks env st h m hl]
    exact invokeHandler_noerr env st h m hexn
  | some arr =>
    by_cases ha : arr.length = 0
    · rw [sendMessage_eq_empty env st h m arr hl ha]
      exact invokeHandler_noerr env st h m hexn
    · obtain ⟨b, hbok⟩ := runHooksDown_ok env h m hexn arr.length st
      rcases hrun : runHooksDown env h m arr.length st with ⟨st1, evs, r⟩
      rw [hrun] at hbok
      dsimp only at hbok
      subst hbok
      cases b with
      | true =>
        rw [sendMessage_eq_run_true env st st1 h m arr evs hl ha hrun]
        exact invokeHandler_noerr env st1 h m hexn
      | false =>
        rw [sendMessage_eq_run_false env st st1 h m arr evs hl ha hrun]

theorem sendMessage_deThrow (env : Env) (st : EngineState) (h : Nat) (m : Msg)
    (hexn : ∀ e, env.exnBeh e = none) :
    (sendMessage (deThrow env) st h m).2.1 = eraseExn (sendMessage env st h m).2.1 := by
  cases hl : lookupHooks st.hooks h with
  | none =>
    rw [sendMessage_eq_noHooks (deThrow env) st h m hl, sendMessage_eq_noHooks env st h m hl]
    exact (invokeHandler_deThrow env st h m hexn).2.1
  | some arr =>
    by_cases ha : arr.length = 0
    · rw [sendMessage_eq_empty (deThrow env) st h m arr hl ha,
          sendMessage_eq_empty env st h m arr hl ha]
      exact (invokeHandler_deThrow env st h m hexn).2.1
    · obtain ⟨b, hbok⟩ := runHooksDown_ok env h m hexn arr.length st
      rcases hrun : runHooksDown env h m arr.length st with ⟨st1, evs, r⟩
      rw [hrun] at hbok
      dsimp only at hbok
      subst hbok
      have hD := runHooksDown_deThrow env h m hexn arr.length st
      rcases hrunD : runHooksDown (deThrow env) h m arr.length st with ⟨stD, evsD, rD⟩
      rw [hrun, hrunD] at hD
      dsimp only at hD
      obtain ⟨hD1, hD2, hD3⟩ := hD
      subst hD1
      subst hD3
      cases b with
      | true =>
        rw [sendMessage_eq_run_true env st stD h m arr evs hl ha hrun,
            sendMessage_eq_run_true (deThrow env) st stD h m arr evsD hl ha hrunD]
        dsimp only
        rw [eraseExn_append, hD2, (invokeHandler_deThrow env stD h m hexn).2.1]
      | false =>
        rw [sendMessage_eq_run_false env st stD h m arr evs hl ha hrun,
            sendMessage_eq_run_false (deThrow env) st stD h m arr evsD hl ha hrunD]
        exact hD2

/-! ### Purity: sends with no removals leave the registry alone -/

theorem runHooksDown_pure_state (env : Env) (h : Nat) (m : Msg)
    (hpure : ∀ k, (env.hookBeh k h m).removals = []) : ∀ (i : Nat) (st : EngineState),
    (runHooksDown env h m i st).1 = st := by
  intro i
  induction i with
  | zero => intro st; rfl
  | succ i ih =>
    intro st
    rw [runHooksDown]
    cases hrs : readSlot st h i with
    | none => exact ih st
    | some k =>
      dsimp only
      cases hb : (env.hookBeh k h m).beh with
      | ret b =>
        have hik : invokeHook env st k h m = (st, [Event.hookRun k], Except.ok b) := by
          simp [invokeHook, hpure k, hb, applyRemovals]
        rw [hik]
        cases b with
        | true => exact ih st
        | false => rfl
      | thrw e =>
        cases he : env.exnBeh e with
        | none =>
          have hik : invokeHook env st k h m =
              (st, [Event.hookRun k, Event.exnHandled e], Except.ok true) := by
            simp [invokeHook, hpure k, hb, he, applyRemovals]
          rw [hik]
          exact ih st
        | some e2 =>
          have hik : invokeHook env st k h m =
              (st, [Event.hookRun k], Except.error e2) := by
            simp [invokeHook, hpure k, hb, he, applyRemovals]
          rw [hik]

theorem postMessage_hooks (env : Env) (st : EngineState) (h : Nat) (m : Msg) :
    (postMessage env st h m).1.hooks = st.hooks := by
  by_cases hc : m.isConflatable = false
  · rw [postMessage_nonConf env st h m hc]
    exact (enqueueMessage_spec st h m).2.2.1
  · rw [postMessage, if_neg hc]
    dsimp only
    split
    · rfl
    · exact (enqueueMessage_spec _ h m).2.2.1

theorem applyPosts_hooks (env : Env) : ∀ (ps : List (Nat × Msg)) (st : EngineState),
    (applyPosts env ps st).1.hooks = st.hooks := by
  intro ps
  induction ps with
  | nil => intro st; rfl
  | cons p rest ih =>
    intro st
    rw [applyPosts_cons]
    dsimp only
    rw [ih, postMessage_hooks]

theorem invokeHandler_hooks (env : Env) (st : EngineState) (h : Nat) (m : Msg) :
    (invokeHandler env st h m).1.hooks = st.hooks := by
  cases hpr : (env.procBeh h m).2 with
  | none =>
    rw [invokeHandler_eq_none env st h m hpr]
    exact applyPosts_hooks env _ st
  | some e =>
    cases he : env.exnBeh e with
    | none =>
      rw [invokeHandler_eq_exn env st h m e hpr he]
      exact applyPosts_hooks env _ st
    | some e2 =>
      rw [invokeHandler_eq_prop env st h m e e2 hpr he]
      exact applyPosts_hooks env _ st

theorem sendMessage_hooks_pure (env : Env) (st : EngineState) (h : Nat) (m : Msg)
    (hpure : ∀ k, (env.hookBeh k h m).removals = []) :
    (sendMessage env st h m).1.hooks = st.hooks := by
  cases hl : lookupHooks st.hooks h with
  | none =>
    rw [sendMessage_eq_noHooks env st h m hl]
    exact invokeHandler_hooks env st h m
  | some arr =>
    by_cases ha : arr.length = 0
    · rw [sendMessage_eq_empty env st h m arr hl ha]
      exact invokeHandler_hooks env st h m
    · have hps := runHooksDown_pure_state env h m hpure arr.length st
      rcases hrun : runHooksDown env h m arr.length st with ⟨st1, evs, r⟩
      rw [hrun] at hps
      dsimp only at hps
      cases r with
      | ok b =>
        cases b with
        | true =>
          rw [sendMessage_eq_run_true env st st1 h m arr evs hl ha hrun]
          have hh := invokeHandler_hooks env st1 h m
          dsimp only
          rw [hh, hps]
        | false =>
          rw [sendMessage_eq_run_false env st st1 h m arr evs hl ha hrun]
          dsimp only
          rw [hps]
      | error e =>
        rw [sendMessage_eq_run_error env st st1 h m arr evs e hl ha hrun]
        dsimp only
        rw [hps]

theorem readSlot_hooks_eq (st stB : EngineState) (h i : Nat) (hh : st.hooks = stB.hooks) :
    readSlot st h i = readSlot stB h i := by
  simp [readSlot, hh]

theorem runHooksDown_events_hooks (env : Env) (h : Nat) (m : Msg)
    (hpure : ∀ k, (env.hookBeh k h m).removals = []) :
    ∀ (i : Nat) (st stB : EngineState), st.hooks = stB.hooks →
    (runHooksDown env h m i st).2.1 = (runHooksDown env h m i stB).2.1
  ∧ (runHooksDown env h m i st).2.2 = (runHooksDown env h m i stB).2.2 := by
  intro i
  induction i with
  | zero => intro st stB _; exact ⟨rfl, rfl⟩
  | succ i ih =>
    intro st stB hh
    rw [runHooksDown, runHooksDown, readSlot_hooks_eq st stB h i hh]
    cases hrs : readSlot stB h i with
    | none => exact ih st stB hh
    | some k =>
      dsimp only
      cases hb : (env.hookBeh k h m).beh with
      | ret b =>
        have hikA : invokeHook env st k h m = (st, [Event.hookRun k], Except.ok b) := by
          simp [invokeHook, hpure k, hb, applyRemovals]
        have hikB : invokeHook env stB k h m = (stB, [Event.hookRun k], Except.ok b) := by
          simp [invokeHook, hpure k, hb, applyRemovals]
        rw [hikA, hikB]
        cases b with
        | true =>
          dsimp only
          obtain ⟨e1, e2⟩ := ih st stB hh
          rw [e1, e2]
          exact ⟨rfl, rfl⟩
        | false => exact ⟨rfl, rfl⟩
      | thrw e =>
        cases he : env.exnBeh e with
        | none =>
          have hikA : invokeHook env st k h m =
              (st, [Event.hookRun k, Event.exnHandled e], Except.ok true) := by
            simp [invokeHook, hpure k, hb, he, applyRemovals]
          have hikB : invokeHook env stB k h m =
              (stB, [Event.hookRun k, Event.exnHandled e], Except.ok true) := by
            simp [invokeHook, hpure k, hb, he, applyRemovals]
          rw [hikA, hikB]
          dsimp only
          obtain ⟨e1, e2⟩ := ih st stB hh
          rw [e1, e2]
          exact ⟨rfl, rfl⟩
        | some e2 =>
          have hikA : invokeHook env st k h m = (st, [Event.hookRun k], Except.error e2) := by
            simp [invokeHook, hpure k, hb, he, applyRemovals]
          have hikB : invokeHook env stB k h m = (stB, [Event.hookRun k], Except.error e2) := by
            simp [invokeHook, hpure k, hb, he, applyRemovals]
          rw [hikA, hikB]
          exact ⟨rfl, rfl⟩

theorem applyPosts_events_const (env : Env) : ∀ (ps : List (Nat × Msg)),
    (∀ p ∈ ps, p.2.isConflatable = false) → ∀ st : EngineState,
    (applyPosts env ps st).2 = ps.map (fun p => Event.enq p.1 p.2) := by
  intro ps
  induction ps with
  | nil => intro _ st; rfl
  | cons p rest ih =>
    intro hps st
    rw [applyPosts_cons]
    dsimp only
    rw [postMessage_nonConf env st p.1 p.2 (hps p (List.mem_cons_self p rest)),
        (enqueueMessage_spec st p.1 p.2).2.1,
        ih (fun q hq => hps q (List.mem_cons_of_mem _ hq))]
    simp

theorem invokeHandler_events_const (env : Env) (h : Nat) (m : Msg)
    (hposts : ∀ p ∈ (env.procBeh h m).1, p.2.isConflatable = false)
    (st stB : EngineState) :
    (invokeHandler env st h m).2.1 = (invokeHandler env stB h m).2.1 := by
  have hA := applyPosts_events_const env (env.procBeh h m).1 hposts st
  have hB := applyPosts_events_const env (env.procBeh h m).1 hposts stB
  cases hpr : (env.procBeh h m).2 with
  | none =>
    rw [invokeHandler_eq_none env st h m hpr, invokeHandler_eq_none env stB h m hpr]
    dsimp only
    rw [hA, hB]
  | some e =>
    cases he : env.exnBeh e with
    | none =>
      rw [invokeHandler_eq_exn env st h m e hpr he, invokeHandler_eq_exn env stB h m e hpr he]
      dsimp only
      rw [hA, hB]
    | some e2 =>
      rw [invokeHandler_eq_prop env st h m e e2 hpr he,
          invokeHandler_eq_prop env stB h m e e2 hpr he]
      dsimp only
      rw [hA, hB]

theorem sendMessage_events_hooks (env : Env) (h : Nat) (m : Msg)
    (hpure : ∀ k, (env.hookBeh k h m).removals = [])
    (hposts : ∀ p ∈ (env.procBeh h m).1, p.2.isConflatable = false)
    (st stB : EngineState) (hh : st.hooks = stB.hooks) :
    (sendMessage env st h m).2.1 = (sendMessage env stB h m).2.1 := by
  cases hl : lookupHooks stB.hooks h with
  | none =>
    have hlA : lookupHooks st.hooks h = none := by rw [hh, hl]
    rw [sendMessage_eq_noHooks env st h m hlA, sendMessage_eq_noHooks env stB h m hl]
    exact invokeHandler_events_const env h m hposts st stB
  | some arr =>
    have hlA : lookupHooks st.hooks h = some arr := by rw [hh, hl]
    by_cases ha : arr.length = 0
    · rw [sendMessage_eq_empty env st h m arr hlA ha, sendMessage_eq_empty env stB h m arr hl ha]
      exact invokeHandler_events_const env h m hposts st stB
    · have hev := runHooksDown_events_hooks env h m hpure arr.length st stB hh
      rcases hrunA : runHooksDown env h m arr.length st with ⟨st1, evs, r⟩
      rcases hrunB : runHooksDown env h m arr.length stB with ⟨st1B, evsB, rB⟩
      rw [hrunA, hrunB] at hev
      dsimp only at hev
      obtain ⟨hev1, hev2⟩ := hev
      subst hev1
      subst hev2
      cases r with
      | ok b =>
        cases b with
        | true =>
          rw [sendMessage_eq_run_true env st st1 h m arr evs hlA ha hrunA,
              sendMessage_eq_run_true env stB st1B h m arr evs hl ha hrunB]
          dsimp only
          rw [invokeHandler_events_const env h m hposts st1 st1B]
        | false =>
          rw [sendMessage_eq_run_false env st st1 h m arr evs hlA ha hrunA,
              sendMessage_eq_run_false env stB st1B h m arr evs hl ha hrunB]
      | error e =>
        rw [sendMessage_eq_run_error env st st1 h m arr evs e hlA ha hrunA,
            sendMessage_eq_run_error env stB st1B h m arr evs e hl ha hrunB]

/-- C4: exceptions in hook and handler invocations are isolated: under an
exception handler that does not itself throw, `sendMessage` never
propagates an exception to its caller; its trace with the
exception-handler invocations erased equals the trace of the environment
in which every faulting hook instead returned true and the handler did not
fault (the fail-open policy); and a subsequent send to another handler is
unaffected (its trace is the same as if the first send had not
happened). -/
theorem c4_send_exception_isolation (env : Env) (st : EngineState) (h : Nat) (m : Msg)
    (h2 : Nat) (m2 : Msg)
    (hexn : ∀ e, env.exnBeh e = none)
    (hpure : ∀ k h3 m3, (env.hookBeh k h3 m3).removals = [])
    (hposts : ∀ h3 m3 p, p ∈ (env.procBeh h3 m3).1 → p.2.isConflatable = false) :
    (sendMessage env st h m).2.2 = none
  ∧ (sendMessage (deThrow env) st h m).2.1 = eraseExn (sendMessage env st h m).2.1
  ∧ (sendMessage env (sendMessage env st h m).1 h2 m2).2.1 = (sendMessage env st h2 m2).2.1 := by
  refine ⟨sendMessage_noerr env st h m hexn, sendMessage_deThrow env st h m hexn, ?_⟩
  have hhooks : (sendMessage env st h m).1.hooks = st.hooks :=
    sendMessage_hooks_pure env st h m (fun k => hpure k h m)
  exact sendMessage_events_hooks env h2 m2 (fun k => hpure k h2 m2)
    (fun p hp => hposts h2 m2 p hp) _ st hhooks

/-! ### The conflation scan versus the in-order matching description -/

theorem matchMsgs_cons_hit (h : Nat) (m : Msg) (e : QueueEntry) (rest : List QueueEntry)
    (pm : Msg) (hm : e.msg = some pm) (hh : e.handler = some h)
    (ht : pm.type = m.type) (hc : pm.isConflatable = true) :
    matchMsgs h m (e :: rest) = pm :: matchMsgs h m rest := by
  simp [matchMsgs, hm, hh, ht, hc]

theorem matchMsgs_cons_noHandler (h : Nat) (m : Msg) (e : QueueEntry)
    (rest : List QueueEntry) (hh : e.handler ≠ some h) :
    matchMsgs h m (e :: rest) = matchMsgs h m rest := by
  cases hm : e.msg with
  | none => simp [matchMsgs, hm]
  | some pm => simp [matchMsgs, hm, hh]

theorem matchMsgs_cons_noMsg (h : Nat) (m : Msg) (e : QueueEntry)
    (rest : List QueueEntry) (hm : e.msg = none) :
    matchMsgs h m (e :: rest) = matchMsgs h m rest := by
  simp [matchMsgs, hm]

theorem matchMsgs_cons_noType (h : Nat) (m : Msg) (e : QueueEntry)
    (rest : List QueueEntry) (pm : Msg) (hm : e.msg = some pm)
    (ht : pm.type ≠ m.type ∨ pm.isConflatable = false) :
    matchMsgs h m (e :: rest) = matchMsgs h m rest := by
  rcases ht with ht | ht
  · simp [matchMsgs, hm, ht]
  · simp [matchMsgs, hm, ht]

theorem scanConflate_spec (env : Env) (h : Nat) (m : Msg) : ∀ q : List QueueEntry,
    (scanConflate env h m q).1 = (claimScan env m (matchMsgs h m q)).1
  ∧ (scanConflate env h m q).2.2 = (claimScan env m (matchMsgs h m q)).2
  ∧ (scanConflate env h m q).2.1.length = q.length := by
  intro q
  induction q with
  | nil => exact ⟨rfl, rfl, rfl⟩
  | cons e rest ih =>
    rw [scanConflate]
    by_cases hh : e.handler ≠ some h
    · rw [if_pos hh, matchMsgs_cons_noHandler h m e rest hh]
      exact ⟨ih.1, ih.2.1, by simp [ih.2.2]⟩
    · rw [if_neg hh]
      push_neg at hh
      cases hm : e.msg with
      | none =>
        rw [matchMsgs_cons_noMsg h m e rest hm]
        exact ⟨ih.1, ih.2.1, by simp [ih.2.2]⟩
      | some pm =>
        dsimp only
        by_cases ht : pm.type ≠ m.type ∨ pm.isConflatable = false
        · rw [if_pos ht, matchMsgs_cons_noType h m e rest pm hm ht]
          exact ⟨ih.1, ih.2.1, by simp [ih.2.2]⟩
        · rw [if_neg ht]
          push_neg at ht
          rw [matchMsgs_cons_hit h m e rest pm hm hh ht.1
            (by cases hcc : pm.isConflatable with
             | true => rfl
             | false => exact absurd hcc ht.2)]
          rw [claimScan]
          dsimp only
          by_cases hcf : (env.conflate pm m).1 = true
          · rw [if_pos hcf, if_pos hcf]
            exact ⟨rfl, rfl, by simp⟩
          · rw [if_neg hcf, if_neg hcf]
            refine ⟨ih.1, ?_, by simp [ih.2.2]⟩
            dsimp only
            rw [ih.2.1]

/-- C2 (amended): for a non-conflatable message `postMessage` appends a new
entry unconditionally; for a conflatable message the live matching entries
(same handler, same type, conflatable) are tried in queue order, each having
its `conflate` invoked, until one accepts — the message is then discarded
and nothing is appended; only if every match declines (or none exists) is a
new entry appended. -/
theorem c2_post_conflation_scan (env : Env) (st : EngineState) (h : Nat) (m : Msg) :
    (m.isConflatable = false →
       (postMessage env st h m).1.queue = st.queue ++ [⟨some h, some m, false⟩]
     ∧ (postMessage env st h m).2 = [Event.enq h m])
  ∧ (m.isConflatable = true →
       (postMessage env st h m).2 =
         (claimScan env m (matchMsgs h m st.queue)).2 ++
         (if (claimScan env m (matchMsgs h m st.queue)).1 then [] else [Event.enq h m])
     ∧ (postMessage env st h m).1.queue.length =
         st.queue.length +
         (if (claimScan env m (matchMsgs h m st.queue)).1 then 0 else 1)) := by
  constructor
  · intro hc
    rw [postMessage_nonConf env st h m hc]
    exact ⟨(enqueueMessage_spec st h m).1, (enqueueMessage_spec st h m).2.1⟩
  · intro hc
    have hsc := scanConflate_spec env h m st.queue
    rw [postMessage, if_neg (by simp [hc])]
    dsimp only
    by_cases hfound : (scanConflate env h m st.queue).1 = true
    · rw [if_pos hfound]
      have hcl : (claimScan env m (matchMsgs h m st.queue)).1 = true := by
        rw [← hsc.1]; exact hfound
      rw [hcl]
      refine ⟨by rw [hsc.2.1]; simp, by simp [hsc.2.2]⟩
    · rw [if_neg hfound]
      have hcl : (claimScan env m (matchMsgs h m st.queue)).1 = false := by
        rw [← hsc.1]
        exact Bool.eq_false_iff.mpr hfound
      rw [hcl]
      dsimp only
      constructor
      · rw [(enqueueMessage_spec _ h m).2.1, hsc.2.1]
        simp
      · rw [show ((enqueueMessage { st with queue := (scanConflate env h m st.queue).2.1 } h m).1.queue)
            = (scanConflate env h m st.queue).2.1 ++ [⟨some h, some m, false⟩]
            from (enqueueMessage_spec _ h m).1]
        simp [hsc.2.2]

/-- C2 counterexample: the first matching entry's `conflate` is invoked and
declines (returns false), yet `postMessage` appends no new entry — the scan
continues and the second match absorbs the message — contradicting the
claim that a declined first match forces a new entry to be appended. -/
theorem c2_counterexample :
    (postMessage envC2 stC2 0 mIn).2 =
      [Event.confCall m1C2 mIn false, Event.confCall m2C2 mIn true]
  ∧ (postMessage envC2 stC2 0 mIn).1.queue.length = 2
  ∧ ¬ ((postMessage envC2 stC2 0 mIn).1.queue.length = stC2.queue.length + 1) := by
  refine ⟨by decide, by decide, by decide⟩

/-! ### `indexOf` (slotIdx) lemmas -/

theorem slotIdx_none_iff (k : Nat) : ∀ arr : List (Option Nat),
    slotIdx k arr = none ↔ some k ∉ arr := by
  intro arr
  induction arr with
  | nil => simp [slotIdx]
  | cons s rest ih =>
    by_cases hs : s = some k
    · subst hs; simp [slotIdx]
    · rw [slotIdx, if_neg hs]
      constructor
      · intro hnone hmem
        rcases List.mem_cons.mp hmem with heq | hmem'
        · exact hs heq.symm
        · have hn : slotIdx k rest = none := by
            cases hr : slotIdx k rest with
            | none => rfl
            | some j => rw [hr] at hnone; cases hnone
          exact (ih.mp hn) hmem'
      · intro hnot
        have hn : slotIdx k rest = none :=
          ih.mpr (fun hm => hnot (List.mem_cons_of_mem _ hm))
        rw [hn]
        rfl

theorem slotIdx_spec (k : Nat) : ∀ (arr : List (Option Nat)) (i : Nat),
    slotIdx k arr = some i →
    arr[i]? = some (some k) ∧ ∀ j, j < i → arr[j]? ≠ some (some k) := by
  intro arr
  induction arr with
  | nil => intro i h; simp [slotIdx] at h
  | cons s rest ih =>
    intro i h
    by_cases hs : s = some k
    · subst hs
      simp [slotIdx] at h
      subst h
      exact ⟨by simp, fun j hj => absurd hj (Nat.not_lt_zero j)⟩
    · rw [slotIdx, if_neg hs] at h
      cases hr : slotIdx k rest with
      | none => rw [hr] at h; cases h
      | some i' =>
        rw [hr] at h
        simp at h
        subst h
        obtain ⟨h1, h2⟩ := ih i' hr
        constructor
        · simpa using h1
        · intro j hj
          cases j with
          | zero =>
            simp
            exact fun hk => hs hk
          | succ j' =>
            have hj' : j' < i' := by omega
            simpa using h2 j' hj'

theorem slotIdx_first (k : Nat) : ∀ (arr : List (Option Nat)) (i : Nat),
    arr[i]? = some (some k) → (∀ j, j < i → arr[j]? ≠ some (some k)) →
    slotIdx k arr = some i := by
  intro arr
  induction arr with
  | nil => intro i h _; simp at h
  | cons s rest ih =>
    intro i h hfirst
    cases i with
    | zero =>
      simp at h
      rw [slotIdx, if_pos h]
    | succ i' =>
      have hs : s ≠ some k := by
        have h0 := hfirst 0 (Nat.succ_pos i')
        simpa using h0
      rw [slotIdx, if_neg hs]
      have hr : slotIdx k rest = some i' := by
        refine ih i' (by simpa using h) ?_
        intro j hj
        have hj1 := hfirst (j + 1) (by omega)
        simpa using hj1
      rw [hr]
      rfl

theorem weakens_refl (arr : List (Option Nat)) : weakens arr arr :=
  ⟨rfl, fun _ _ => Or.inl rfl⟩

theorem weakens_set_none (arr0 arr : List (Option Nat)) (i : Nat)
    (hW : weakens arr0 arr) : weakens arr0 (arr.set i none) := by
  obtain ⟨hlen, hptw⟩ := hW
  refine ⟨by simp [hlen], ?_⟩
  intro j hj
  by_cases hij : i = j
  · subst hij
    by_cases hlt : i < arr.length
    · exact Or.inr (List.getElem?_set_eq_of_lt none hlt)
    · rw [List.set_eq_of_length_le (Nat.le_of_not_lt hlt)]
      exact hptw i hj
  · rw [List.getElem?_set_ne hij]
    exact hptw j hj

theorem removeMessageHook_hooksW (st : EngineState) (h' k' h : Nat)
    (arr0 : List (Option Nat)) (hW : hooksW st h arr0) :
    hooksW (removeMessageHook st h' k') h arr0 := by
  unfold removeMessageHook
  split
  · exact hW
  · rename_i arrA hlA
    split
    · exact hW
    · rename_i i hi
      obtain ⟨arr, hlk, hwk⟩ := hW
      by_cases hhh : h' = h
      · subst hhh
        rw [hlA] at hlk
        injection hlk with hlk
        subst hlk
        refine ⟨arrA.set i none, ?_, weakens_set_none arr0 arrA i hwk⟩
        rw [show (scheduleCleanup
            { st with hooks := setHooks st.hooks h' (arrA.set i none) } h').hooks =
            setHooks st.hooks h' (arrA.set i none) from rfl]
        exact lookup_setHooks_self _ _ _
      · refine ⟨arr, ?_, hwk⟩
        rw [show (scheduleCleanup
            { st with hooks := setHooks st.hooks h' (arrA.set i none) } h').hooks =
            setHooks st.hooks h' (arrA.set i none) from rfl]
        rw [lookup_setHooks_ne st.hooks h' h (arrA.set i none) (fun hh => hhh hh.symm)]
        exact hlk

theorem applyRemovals_hooksW (h : Nat) (arr0 : List (Option Nat)) :
    ∀ (rs : List (Nat × Nat)) (st : EngineState), hooksW st h arr0 →
    hooksW (applyRemovals st rs) h arr0 := by
  intro rs
  induction rs with
  | nil => intro st hW; exact hW
  | cons p rest ih =>
    intro st hW
    exact ih _ (removeMessageHook_hooksW st p.1 p.2 h arr0 hW)

theorem invokeHook_state_eq (env : Env) (st : EngineState) (k h : Nat) (m : Msg) :
    (invokeHook env st k h m).1 = applyRemovals st (env.hookBeh k h m).removals := by
  cases hb : (env.hookBeh k h m).beh with
  | ret b => simp [invokeHook, hb]
  | thrw e =>
    cases he : env.exnBeh e with
    | none => simp [invokeHook, hb, he]
    | some e2 => simp [invokeHook, hb, he]

theorem invokeHook_count_hookRun (env : Env) (st : EngineState) (k' h k : Nat) (m : Msg) :
    ((invokeHook env st k' h m).2.1).count (Event.hookRun k) =
      (if k' = k then 1 else 0) := by
  cases hb : (env.hookBeh k' h m).beh with
  | ret b =>
    simp only [invokeHook, hb]
    by_cases hk : k' = k <;> simp [hk, List.count_cons]
  | thrw e =>
    cases he : env.exnBeh e with
    | none =>
      simp only [invokeHook, hb, he]
      by_cases hk : k' = k <;> simp [hk, List.count_cons]
    | some e2 =>
      simp only [invokeHook, hb, he]
      by_cases hk : k' = k <;> simp [hk, List.count_cons]

theorem count_take_mono (arr0 : List (Option Nat)) (i : Nat) (x : Option Nat) :
    ((arr0.take i).count x) ≤ ((arr0.take (i + 1)).count x) := by
  rw [List.take_succ, List.count_append]
  omega

theorem runHooksDown_count (env : Env) (h : Nat) (m : Msg) (k : Nat) :
    ∀ (i : Nat) (st : EngineState) (arr0 : List (Option Nat)), hooksW st h arr0 →
    ((runHooksDown env h m i st).2.1).count (Event.hookRun k) ≤
      (arr0.take i).count (some k) := by
  intro i
  induction i with
  | zero => intro st arr0 _; simp [runHooksDown]
  | succ i ih =>
    intro st arr0 hW
    obtain ⟨arr, hlk, hwk⟩ := hW
    rw [runHooksDown]
    have hrs : readSlot st h i = arr.getD i none := by simp [readSlot, hlk]
    cases hgi : arr[i]? with
    | none =>
      have hnone : readSlot st h i = none := by
        rw [hrs]
        simp [List.getD, hgi]
      rw [hnone]
      exact Nat.le_trans (ih st arr0 ⟨arr, hlk, hwk⟩) (count_take_mono arr0 i (some k))
    | some s =>
      have hslot : readSlot st h i = s := by
        rw [hrs]
        simp [List.getD, hgi]
      rw [hslot]
      have hiltA : i < arr.length := by
        by_contra hc
        rw [List.getElem?_eq_none (Nat.le_of_not_lt hc)] at hgi
        cases hgi
      have hilt : i < arr0.length := hwk.1 ▸ hiltA
      have htak : (arr0.take (i + 1)).count (some k) =
          (arr0.take i).count (some k) +
          (if arr0[i]? = some (some k) then 1 else 0) := by
        rw [List.take_succ, List.count_append]
        cases hg0 : arr0[i]? with
        | none => simp [hg0]
        | some y =>
          by_cases hy : y = some k
          · subst hy; simp [hg0]
          · have h0 : List.count (some k) [y] = 0 :=
              List.count_eq_zero.mpr (fun hc => hy (List.mem_singleton.mp hc).symm)
            simp [hg0, hy, h0]
      cases s with
      | none =>
        dsimp only
        rw [htak]
        exact Nat.le_trans (ih st arr0 ⟨arr, hlk, hwk⟩) (by omega)
      | some k' =>
        have harr0i : arr0[i]? = some (some k') := by
          rcases hwk.2 i hilt with hsame | htomb
          · rw [← hsame, hgi]
          · rw [hgi] at htomb; cases htomb
        rcases hik : invokeHook env st k' h m with ⟨st1, evs, r⟩
        have hic := invokeHook_count_hookRun env st k' h k m
        rw [hik] at hic
        dsimp only at hic
        have hW1 : hooksW st1 h arr0 := by
          have hst1 : st1 = applyRemovals st (env.hookBeh k' h m).removals := by
            have := invokeHook_state_eq env st k' h m
            rw [hik] at this
            exact this
          rw [hst1]
          exact applyRemovals_hooksW h arr0 _ st ⟨arr, hlk, hwk⟩
        rw [htak, harr0i]
        dsimp only
        rw [hik]
        have hif : (if (some (some k') : Option (Option Nat)) = some (some k) then 1 else 0)
            = (if k' = k then 1 else 0) := by
          by_cases hk : k' = k
          · subst hk; simp
          · simp [hk]
        rw [hif]
        cases r with
        | ok b =>
          cases b with
          | true =>
            dsimp only
            rw [List.count_append, hic]
            have hrec := ih st1 arr0 hW1
            omega
          | false =>
            dsimp only
            rw [hic]
            omega
        | error e =>
          dsimp only
          rw [hic]
          omega

theorem invokeHandler_count_hookRun_zero (env : Env) (st : EngineState) (h : Nat)
    (m : Msg) (k : Nat) :
    ((invokeHandler env st h m).2.1).count (Event.hookRun k) = 0 := by
  have hcls := applyPosts_events env (env.procBeh h m).1 st
  have hz : ((applyPosts env (env.procBeh h m).1 st).2).count (Event.hookRun k) = 0 := by
    refine List.count_eq_zero.mpr ?_
    intro hmem
    rcases hcls _ hmem with ⟨a, b, hab⟩ | ⟨t, i, a, hc⟩
    · cases hab
    · cases hc
  cases hpr : (env.procBeh h m).2 with
  | none =>
    rw [invokeHandler_eq_none env st h m hpr]
    simp [List.count_cons, hz]
  | some e =>
    cases he : env.exnBeh e with
    | none =>
      rw [invokeHandler_eq_exn env st h m e hpr he]
      simp [List.count_append, List.count_cons, hz]
    | some e2 =>
      rw [invokeHandler_eq_prop env st h m e e2 hpr he]
      simp [List.count_cons, hz]

theorem sendMessage_count_hookRun (env : Env) (st : EngineState) (h : Nat) (m : Msg)
    (k : Nat) :
    ((sendMessage env st h m).2.1).count (Event.hookRun k) ≤
      (slotsOfD st h).count (some k) := by
  cases hl : lookupHooks st.hooks h with
  | none =>
    rw [sendMessage_eq_noHooks env st h m hl,
        invokeHandler_count_hookRun_zero env st h m k]
    exact Nat.zero_le _
  | some arr =>
    have hslots : slotsOfD st h = arr := by simp [slotsOfD, hl]
    rw [hslots]
    by_cases ha : arr.length = 0
    · rw [sendMessage_eq_empty env st h m arr hl ha,
          invokeHandler_count_hookRun_zero env st h m k]
      exact Nat.zero_le _
    · have hcnt := runHooksDown_count env h m k arr.length st
        arr ⟨arr, hl, weakens_refl arr⟩
      rw [List.take_length] at hcnt
      rcases hrun : runHooksDown env h m arr.length st with ⟨st1, evs, r⟩
      rw [hrun] at hcnt
      dsimp only at hcnt
      cases r with
      | ok b =>
        cases b with
        | true =>
          rw [sendMessage_eq_run_true env st st1 h m arr evs hl ha hrun]
          dsimp only
          rw [List.count_append, invokeHandler_count_hookRun_zero env st1 h m k]
          omega
        | false =>
          rw [sendMessage_eq_run_false env st st1 h m arr evs hl ha hrun]
          exact hcnt
      | error e =>
        rw [sendMessage_eq_run_error env st st1 h m arr evs e hl ha hrun]
        exact hcnt

theorem hookChain_cons (env : Env) (h : Nat) (m : Msg) (k : Nat) (rl : List Nat) :
    ∃ t, (hookChain env h m (k :: rl)).1 = k :: t := by
  cases hb : (env.hookBeh k h m).beh with
  | ret b =>
    cases b with
    | true => exact ⟨(hookChain env h m rl).1, by rw [hookChain, hb]⟩
    | false => exact ⟨[], by rw [hookChain, hb]⟩
  | thrw e => exact ⟨(hookChain env h m rl).1, by rw [hookChain, hb]⟩

theorem install_lookup_append (st : EngineState) (h k : Nat)
    (hnot : ∀ arr, lookupHooks st.hooks h = some arr → some k ∉ arr) :
    lookupHooks (installMessageHook st h k).hooks h = some (slotsOfD st h ++ [some k]) := by
  cases hl : lookupHooks st.hooks h with
  | none =>
    rw [show (installMessageHook st h k).hooks = setHooks st.hooks h [some k] from by
      simp [installMessageHook, hl]]
    rw [lookup_setHooks_self]
    simp [slotsOfD, hl]
  | some arr =>
    have hmem : some k ∉ arr := hnot arr hl
    rw [show (installMessageHook st h k).hooks = setHooks st.hooks h (arr ++ [some k]) from by
      simp [installMessageHook, hl, hmem]]
    rw [lookup_setHooks_self]
    simp [slotsOfD, hl]

theorem installMessageHook_eq_mem (st : EngineState) (h k : Nat)
    (arr : List (Option Nat)) (hl : lookupHooks st.hooks h = some arr)
    (hmem : some k ∈ arr) : installMessageHook st h k = st := by
  simp only [installMessageHook, hl]
  rw [if_pos hmem]

/-- C7: `installMessageHook` is idempotent — a hook already present anywhere
in the handler's list makes the call a no-op, so installing twice and then
sending invokes the hook at most once for the delivered message; a hook not
yet present is appended to the end of the list, making it the first to
execute on subsequent sends. -/
theorem c7_install_idempotent (env : Env) (st : EngineState) (h k : Nat) (m : Msg)
    (hpure : ∀ k2, (env.hookBeh k2 h m).removals = [])
    (hret : ∀ k2, ∃ b, (env.hookBeh k2 h m).beh = HookBeh.ret b) :
    ((∃ arr, lookupHooks st.hooks h = some arr ∧ some k ∈ arr) →
        installMessageHook st h k = st)
  ∧ ((∀ arr, lookupHooks st.hooks h = some arr → some k ∉ arr) →
        slotsOfD (installMessageHook st h k) h = slotsOfD st h ++ [some k])
  ∧ ((slotsOfD st h).count (some k) ≤ 1 →
        ((sendMessage env (installMessageHook (installMessageHook st h k) h k) h m).2.1).count
          (Event.hookRun k) ≤ 1)
  ∧ ((∀ arr, lookupHooks st.hooks h = some arr → some k ∉ arr) →
        ((sendMessage env (installMessageHook st h k) h m).2.1).head? =
          some (Event.hookRun k)) := by
  refine ⟨?_, ?_, ?_, ?_⟩
  · rintro ⟨arr, hl, hmem⟩
    simp [installMessageHook, hl, hmem]
  · intro hnot
    rw [slotsOfD, install_lookup_append st h k hnot]
    rfl
  · intro hcount
    have hfin : ∃ arrF, lookupHooks
        (installMessageHook (installMessageHook st h k) h k).hooks h = some arrF ∧
        arrF.count (some k) ≤ 1 := by
      cases hl : lookupHooks st.hooks h with
      | none =>
        have h1 : lookupHooks (installMessageHook st h k).hooks h = some [some k] := by
          have := install_lookup_append st h k (fun arr ha => by rw [hl] at ha; cases ha)
          rw [this]
          simp [slotsOfD, hl]
        have h2 : installMessageHook (installMessageHook st h k) h k =
            installMessageHook st h k :=
          installMessageHook_eq_mem _ h k [some k] h1 (by simp)
        rw [h2, h1]
        exact ⟨[some k], rfl, by simp⟩
      | some arr =>
        by_cases hmem : some k ∈ arr
        · have h1 : installMessageHook st h k = st :=
            installMessageHook_eq_mem st h k arr hl hmem
          have h2 : installMessageHook (installMessageHook st h k) h k = st := by
            rw [h1]
            exact installMessageHook_eq_mem st h k arr hl hmem
          rw [h2, hl]
          refine ⟨arr, rfl, ?_⟩
          have : slotsOfD st h = arr := by simp [slotsOfD, hl]
          rw [← this]
          exact hcount
        · have h1 : lookupHooks (installMessageHook st h k).hooks h =
              some (arr ++ [some k]) := by
            have := install_lookup_append st h k (fun arr2 ha => by
              rw [hl] at ha; injection ha with ha; subst ha; exact hmem)
            rw [this]
            simp [slotsOfD, hl]
          have h2 : installMessageHook (installMessageHook st h k) h k =
              installMessageHook st h k :=
            installMessageHook_eq_mem _ h k (arr ++ [some k]) h1 (by simp)
          rw [h2, h1]
          refine ⟨arr ++ [some k], rfl, ?_⟩
          have hz : arr.count (some k) = 0 := List.count_eq_zero.mpr hmem
          simp [List.count_append, hz]
    obtain ⟨arrF, hlF, hcF⟩ := hfin
    have := sendMessage_count_hookRun env
      (installMessageHook (installMessageHook st h k) h k) h m k
    rw [slotsOfD, hlF] at this
    exact Nat.le_trans this hcF
  · intro hnot
    have hlI := install_lookup_append st h k hnot
    have hlen : (slotsOfD st h ++ [some k]).length ≠ 0 := by simp
    have heval := runHooksDown_pure_eval env h m (installMessageHook st h k)
      (slotsOfD st h ++ [some k]) hlI hpure hret (slotsOfD st h ++ [some k]).length
      (Nat.le_refl _)
    rw [List.take_length] at heval
    have hrev : ((slotsOfD st h ++ [some k]).reverse.filterMap id : List Nat) =
        k :: ((slotsOfD st h).reverse.filterMap id) := by
      rw [List.reverse_append]
      simp
    rw [hrev] at heval
    obtain ⟨t, ht⟩ := hookChain_cons env h m k ((slotsOfD st h).reverse.filterMap id)
    cases hpass : (hookChain env h m (k :: (slotsOfD st h).reverse.filterMap id)).2 with
    | true =>
      rw [hpass] at heval
      rw [sendMessage_eq_run_true env (installMessageHook st h k) (installMessageHook st h k)
        h m (slotsOfD st h ++ [some k]) _ hlI hlen heval]
      dsimp only
      rw [ht]
      rfl
    | false =>
      rw [hpass] at heval
      rw [sendMessage_eq_run_false env (installMessageHook st h k) (installMessageHook st h k)
        h m (slotsOfD st h ++ [some k]) _ hlI hlen heval]
      rw [ht]
      rfl

/-! ### Helper lemmas for re-entrant self-removal -/

theorem mem_of_getElem_opt (l : List (Option Nat)) (i : Nat) (a : Option Nat)
    (h : l[i]? = some a) : a ∈ l := by
  have hi : i < l.length := by
    by_contra hc
    rw [List.getElem?_eq_none (Nat.le_of_not_lt hc)] at h
    cases h
  have hv : l[i] = a := by
    have hg := List.getElem?_eq_getElem hi
    rw [hg] at h
    injection h
  exact hv ▸ List.getElem_mem hi

theorem two_le_count_of_two_pos (l : List (Option Nat)) (a : Option Nat) :
    ∀ (i j : Nat), i ≠ j → l[i]? = some a → l[j]? = some a → 2 ≤ l.count a := by
  induction l with
  | nil => intro i j _ hi _; simp at hi
  | cons s rest ih =>
    intro i j hne hi hj
    cases i with
    | zero =>
      cases j with
      | zero => exact absurd rfl hne
      | succ j' =>
        simp at hi
        have hmem : a ∈ rest := mem_of_getElem_opt rest j' a (by simpa using hj)
        have h1 : 1 ≤ rest.count a := by
          have hx := List.count_pos_iff.mpr hmem
          omega
        rw [List.count_cons, hi, beq_self_eq_true a]
        simp only [if_true]
        omega
    | succ i' =>
      cases j with
      | zero =>
        simp at hj
        have hmem : a ∈ rest := mem_of_getElem_opt rest i' a (by simpa using hi)
        have h1 : 1 ≤ rest.count a := by
          have hx := List.count_pos_iff.mpr hmem
          omega
        rw [List.count_cons, hj, beq_self_eq_true a]
        simp only [if_true]
        omega
      | succ j' =>
        have h2 := ih i' j' (by omega) (by simpa using hi) (by simpa using hj)
        rw [List.count_cons]
        omega

theorem count_le_one_unique (l : List (Option Nat)) (a : Option Nat)
    (hc : l.count a ≤ 1) (i j : Nat) (hi : l[i]? = some a) (hj : l[j]? = some a) :
    i = j := by
  by_contra hne
  have := two_le_count_of_two_pos l a i j hne hi hj
  omega

theorem scanConflate_pureEnv (env : Env) (h : Nat) (m : Msg) :
    ∀ q, scanConflate (pureEnv env) h m q = scanConflate env h m q := by
  intro q
  induction q with
  | nil => rfl
  | cons e rest ih =>
    rw [scanConflate, scanConflate, ih]
    have hc : (pureEnv env).conflate = env.conflate := rfl
    rw [hc]

theorem postMessage_pureEnv (env : Env) (st : EngineState) (h : Nat) (m : Msg) :
    postMessage (pureEnv env) st h m = postMessage env st h m := by
  unfold postMessage
  rw [scanConflate_pureEnv]

theorem applyPosts_pureEnv (env : Env) : ∀ (ps : List (Nat × Msg)) (st : EngineState),
    applyPosts (pureEnv env) ps st = applyPosts env ps st := by
  intro ps
  induction ps with
  | nil => intro st; rfl
  | cons p rest ih =>
    intro st
    rw [applyPosts_cons, applyPosts_cons, postMessage_pureEnv, ih]

theorem invokeHandler_pureEnv (env : Env) (st : EngineState) (h : Nat) (m : Msg) :
    invokeHandler (pureEnv env) st h m = invokeHandler env st h m := by
  have hpb : (pureEnv env).procBeh = env.procBeh := rfl
  cases hpr : (env.procBeh h m).2 with
  | none =>
    rw [invokeHandler_eq_none (pureEnv env) st h m
        (show ((pureEnv env).procBeh h m).2 = none from hpr),
      invokeHandler_eq_none env st h m hpr, hpb, applyPosts_pureEnv]
  | some e =>
    cases he : env.exnBeh e with
    | none =>
      rw [invokeHandler_eq_exn (pureEnv env) st h m e
          (show ((pureEnv env).procBeh h m).2 = some e from hpr)
          (show (pureEnv env).exnBeh e = none from he),
        invokeHandler_eq_exn env st h m e hpr he, hpb, applyPosts_pureEnv]
    | some e2 =>
      rw [invokeHandler_eq_prop (pureEnv env) st h m e e2
          (show ((pureEnv env).procBeh h m).2 = some e from hpr)
          (show (pureEnv env).exnBeh e = some e2 from he),
        invokeHandler_eq_prop env st h m e e2 hpr he, hpb, applyPosts_pureEnv]

theorem postMessage_queue_events (env : Env) (stA stB : EngineState) (h : Nat) (m : Msg)
    (hq : stA.queue = stB.queue) :
    (postMessage env stA h m).2 = (postMessage env stB h m).2
  ∧ (postMessage env stA h m).1.queue = (postMessage env stB h m).1.queue := by
  by_cases hc : m.isConflatable = false
  · rw [postMessage_nonConf env stA h m hc, postMessage_nonConf env stB h m hc]
    rw [(enqueueMessage_spec stA h m).2.1, (enqueueMessage_spec stB h m).2.1,
        (enqueueMessage_spec stA h m).1, (enqueueMessage_spec stB h m).1, hq]
    exact ⟨rfl, rfl⟩
  · rw [postMessage, postMessage, if_neg hc, if_neg hc, hq]
    dsimp only
    split
    · exact ⟨rfl, rfl⟩
    · rw [(enqueueMessage_spec _ h m).2.1, (enqueueMessage_spec _ h m).2.1,
          (enqueueMessage_spec _ h m).1, (enqueueMessage_spec _ h m).1]
      exact ⟨rfl, rfl⟩

theorem applyPosts_queue_events (env : Env) : ∀ (ps : List (Nat × Msg))
    (stA stB : EngineState), stA.queue = stB.queue →
    (applyPosts env ps stA).2 = (applyPosts env ps stB).2
  ∧ (applyPosts env ps stA).1.queue = (applyPosts env ps stB).1.queue := by
  intro ps
  induction ps with
  | nil => intro stA stB hq; exact ⟨rfl, hq⟩
  | cons p rest ih =>
    intro stA stB hq
    rw [applyPosts_cons, applyPosts_cons]
    have hp := postMessage_queue_events env stA stB p.1 p.2 hq
    have hr := ih (postMessage env stA p.1 p.2).1 (postMessage env stB p.1 p.2).1 hp.2
    exact ⟨by dsimp only; rw [hp.1, hr.1], by dsimp only; rw [hr.2]⟩

theorem invokeHandler_queue_events (env : Env) (stA stB : EngineState) (h : Nat) (m : Msg)
    (hq : stA.queue = stB.queue) :
    (invokeHandler env stA h m).2.1 = (invokeHandler env stB h m).2.1 := by
  have hap := applyPosts_queue_events env (env.procBeh h m).1 stA stB hq
  cases hpr : (env.procBeh h m).2 with
  | none =>
    rw [invokeHandler_eq_none env stA h m hpr, invokeHandler_eq_none env stB h m hpr]
    dsimp only
    rw [hap.1]
  | some e =>
    cases he : env.exnBeh e with
    | none =>
      rw [invokeHandler_eq_exn env stA h m e hpr he, invokeHandler_eq_exn env stB h m e hpr he]
      dsimp only
      rw [hap.1]
    | some e2 =>
      rw [invokeHandler_eq_prop env stA h m e e2 hpr he,
          invokeHandler_eq_prop env stB h m e e2 hpr he]
      dsimp only
      rw [hap.1]

theorem runHooksDown_selfRemove (env : Env) (h : Nat) (m : Msg) (st0 : EngineState)
    (arr0 : List (Option Nat)) (harr0 : lookupHooks st0.hooks h = some arr0)
    (hSelf : ∀ k2, (env.hookBeh k2 h m).removals = [] ∨
             (env.hookBeh k2 h m).removals = [(h, k2)])
    (hND : ∀ k2, arr0.count (some k2) ≤ 1) :
    ∀ (i : Nat) (stA : EngineState) (arrA : List (Option Nat)),
      lookupHooks stA.hooks h = some arrA → weakens arr0 arrA →
      (∀ j, j < i → arrA[j]? = arr0[j]?) →
      stA.queue = st0.queue →
      (runHooksDown env h m i stA).2.1 = (runHooksDown (pureEnv env) h m i st0).2.1
    ∧ (runHooksDown env h m i stA).2.2 = (runHooksDown (pureEnv env) h m i st0).2.2
    ∧ (runHooksDown env h m i stA).1.queue = st0.queue := by
  intro i
  induction i with
  | zero => intro stA arrA _ _ _ hq; exact ⟨rfl, rfl, hq⟩
  | succ i ih =>
    intro stA arrA hlkA hwk hlow hq
    have hii : arrA[i]? = arr0[i]? := hlow i (Nat.lt_succ_self i)
    have hrsA : readSlot stA h i = arrA.getD i none := by simp [readSlot, hlkA]
    have hrs0 : readSlot st0 h i = arr0.getD i none := by simp [readSlot, harr0]
    have hgd : arrA.getD i none = arr0.getD i none := by simp [List.getD, hii]
    rw [runHooksDown, runHooksDown, hrsA, hrs0, hgd]
    cases hgi : arr0.getD i none with
    | none => exact ih stA arrA hlkA hwk (fun j hj => hlow j (by omega)) hq
    | some k2 =>
      dsimp only
      have hgiE : arr0[i]? = some (some k2) := by
        rw [show arr0.getD i none = Option.getD arr0[i]? none from by simp [List.getD]] at hgi
        cases hg : arr0[i]? with
        | none => rw [hg] at hgi; cases hgi
        | some s =>
          rw [hg] at hgi
          dsimp at hgi
          rw [hgi]
      have hiiE : arrA[i]? = some (some k2) := by rw [hii, hgiE]
      have hpack : ∃ arrA2,
          lookupHooks (applyRemovals stA (env.hookBeh k2 h m).removals).hooks h = some arrA2
        ∧ weakens arr0 arrA2
        ∧ (∀ j, j < i → arrA2[j]? = arr0[j]?)
        ∧ (applyRemovals stA (env.hookBeh k2 h m).removals).queue = st0.queue := by
        rcases hSelf k2 with hnone | hself
        · rw [hnone]
          exact ⟨arrA, hlkA, hwk, fun j hj => hlow j (by omega), hq⟩
        · rw [hself]
          have hfirst : ∀ j, j < i → arrA[j]? ≠ some (some k2) := by
            intro j hj hcon
            have hj0 : arr0[j]? = some (some k2) := by
              rw [← hlow j (by omega)]
              exact hcon
            have := count_le_one_unique arr0 (some k2) (hND k2) j i hj0 hgiE
            omega
          have hidx : slotIdx k2 arrA = some i := slotIdx_first k2 arrA i hiiE hfirst
          have hrem : applyRemovals stA [(h, k2)] =
              scheduleCleanup { stA with hooks := setHooks stA.hooks h (arrA.set i none) } h := by
            rw [show applyRemovals stA [(h, k2)] = removeMessageHook stA h k2 from rfl]
            simp only [removeMessageHook, hlkA, hidx]
          rw [hrem]
          refine ⟨arrA.set i none, ?_, weakens_set_none arr0 arrA i hwk, ?_, ?_⟩
          · rw [show (scheduleCleanup
                { stA with hooks := setHooks stA.hooks h (arrA.set i none) } h).hooks =
                setHooks stA.hooks h (arrA.set i none) from rfl]
            exact lookup_setHooks_self _ _ _
          · intro j hj
            rw [List.getElem?_set_ne (by omega : i ≠ j)]
            exact hlow j (by omega)
          · rw [show (scheduleCleanup
                { stA with hooks := setHooks stA.hooks h (arrA.set i none) } h).queue =
                stA.queue from rfl]
            exact hq
      obtain ⟨arrA2, hlk2, hwk2, hlow2, hq2⟩ := hpack
      have hihA := ih (applyRemovals stA (env.hookBeh k2 h m).removals) arrA2 hlk2 hwk2 hlow2 hq2
      cases hb : (env.hookBeh k2 h m).beh with
      | ret b =>
        have hikA : invokeHook env stA k2 h m =
            (applyRemovals stA (env.hookBeh k2 h m).removals,
             [Event.hookRun k2], Except.ok b) := by
          simp [invokeHook, hb]
        have hikP : invokeHook (pureEnv env) st0 k2 h m =
            (st0, [Event.hookRun k2], Except.ok b) := by
          simp [invokeHook, pureEnv, hb, applyRemovals]
        rw [hikA, hikP]
        cases b with
        | true =>
          dsimp only
          exact ⟨by rw [hihA.1], hihA.2.1, hihA.2.2⟩
        | false => exact ⟨rfl, rfl, hq2⟩
      | thrw e =>
        cases he : env.exnBeh e with
        | none =>
          have hikA : invokeHook env stA k2 h m =
              (applyRemovals stA (env.hookBeh k2 h m).removals,
               [Event.hookRun k2, Event.exnHandled e], Except.ok true) := by
            simp [invokeHook, hb, he]
          have hikP : invokeHook (pureEnv env) st0 k2 h m =
              (st0, [Event.hookRun k2, Event.exnHandled e], Except.ok true) := by
            simp [invokeHook, pureEnv, hb, he, applyRemovals]
          rw [hikA, hikP]
          dsimp only
          exact ⟨by rw [hihA.1], hihA.2.1, hihA.2.2⟩
        | some e2 =>
          have hikA : invokeHook env stA k2 h m =
              (applyRemovals stA (env.hookBeh k2 h m).removals,
               [Event.hookRun k2], Except.error e2) := by
            simp [invokeHook, hb, he]
          have hikP : invokeHook (pureEnv env) st0 k2 h m =
              (st0, [Event.hookRun k2], Except.error e2) := by
            simp [invokeHook, pureEnv, hb, he, applyRemovals]
          rw [hikA, hikP]
          exact ⟨rfl, rfl, hq2⟩

theorem sendMessage_selfRemove (env : Env) (st : EngineState) (h : Nat) (m : Msg)
    (hSelf : ∀ k2, (env.hookBeh k2 h m).removals = [] ∨
             (env.hookBeh k2 h m).removals = [(h, k2)])
    (hND : ∀ k2, (slotsOfD st h).count (some k2) ≤ 1) :
    (sendMessage env st h m).2.1 = (sendMessage (pureEnv env) st h m).2.1 := by
  cases hl : lookupHooks st.hooks h with
  | none =>
    rw [sendMessage_eq_noHooks env st h m hl, sendMessage_eq_noHooks (pureEnv env) st h m hl,
        invokeHandler_pureEnv]
  | some arr0 =>
    by_cases ha : arr0.length = 0
    · rw [sendMessage_eq_empty env st h m arr0 hl ha,
          sendMessage_eq_empty (pureEnv env) st h m arr0 hl ha, invokeHandler_pureEnv]
    · have hND0 : ∀ k2, arr0.count (some k2) ≤ 1 := by
        intro k2
        have := hND k2
        rw [slotsOfD, hl] at this
        exact this
      have hmain := runHooksDown_selfRemove env h m st arr0 hl hSelf hND0 arr0.length st arr0
        hl (weakens_refl arr0) (fun j _ => rfl) rfl
      have hpureSt := runHooksDown_pure_state (pureEnv env) h m (fun k => rfl) arr0.length st
      rcases hrunA : runHooksDown env h m arr0.length st with ⟨st1, evs, r⟩
      rcases hrunP : runHooksDown (pureEnv env) h m arr0.length st with ⟨stP, evsP, rP⟩
      rw [hrunA, hrunP] at hmain
      rw [hrunP] at hpureSt
      dsimp only at hmain hpureSt
      obtain ⟨hev, hres, hq1⟩ := hmain
      subst hev
      subst hres
      subst hpureSt
      cases r with
      | ok b =>
        cases b with
        | true =>
          rw [sendMessage_eq_run_true env stP st1 h m arr0 evs hl ha hrunA,
              sendMessage_eq_run_true (pureEnv env) stP stP h m arr0 evs hl ha hrunP]
          dsimp only
          rw [invokeHandler_pureEnv env stP h m,
              invokeHandler_queue_events env st1 stP h m (by rw [hq1])]
        | false =>
          rw [sendMessage_eq_run_false env stP st1 h m arr0 evs hl ha hrunA,
              sendMessage_eq_run_false (pureEnv env) stP stP h m arr0 evs hl ha hrunP]
      | error e =>
        rw [sendMessage_eq_run_error env stP st1 h m arr0 evs e hl ha hrunA,
            sendMessage_eq_run_error (pureEnv env) stP stP h m arr0 evs e hl ha hrunP]

theorem count_set_none (k : Nat) : ∀ (arr : List (Option Nat)) (i : Nat),
    arr[i]? = some (some k) →
    (arr.set i none).count (some k) + 1 = arr.count (some k) := by
  intro arr
  induction arr with
  | nil => intro i hi; simp at hi
  | cons s rest ih =>
    intro i hi
    cases i with
    | zero =>
      simp at hi
      subst hi
      rw [List.set_cons_zero, List.count_cons, List.count_cons]
      simp
    | succ i' =>
      have hr := ih i' (by simpa using hi)
      rw [List.set_cons_succ, List.count_cons, List.count_cons]
      omega

theorem scheduleCleanup_dirty_mem (st : EngineState) (h : Nat) :
    h ∈ (scheduleCleanup st h).dirty := by
  unfold scheduleCleanup
  by_cases hmem : h ∈ st.dirty
  · simp [hmem]
  · simp [hmem]

/-- C6: `removeMessageHook` tombstones the found slot in place (the array
keeps its length) and schedules deferred compaction (the array is added to
the dirty set) rather than resizing; removing a hook that is not installed
is a no-op; after removal a subsequent send to that handler never invokes
the removed hook; and removal performed re-entrantly by an executing hook
(each hook removing at most itself) does not change the current delivery's
trace. -/
theorem c6_remove_hook (env : Env) (st : EngineState) (h k : Nat) (m : Msg) :
    ((∀ arr, lookupHooks st.hooks h = some arr → slotIdx k arr = none) →
        removeMessageHook st h k = st)
  ∧ (∀ arr i, lookupHooks st.hooks h = some arr → slotIdx k arr = some i →
        lookupHooks (removeMessageHook st h k).hooks h = some (arr.set i none)
      ∧ (arr.set i none).length = arr.length
      ∧ h ∈ (removeMessageHook st h k).dirty
      ∧ (removeMessageHook st h k).queue = st.queue)
  ∧ ((slotsOfD st h).count (some k) ≤ 1 →
        ((sendMessage env (removeMessageHook st h k) h m).2.1).count (Event.hookRun k) = 0)
  ∧ ((∀ k2, (env.hookBeh k2 h m).removals = [] ∨
        (env.hookBeh k2 h m).removals = [(h, k2)]) →
     (∀ k2, (slotsOfD st h).count (some k2) ≤ 1) →
        (sendMessage env st h m).2.1 = (sendMessage (pureEnv env) st h m).2.1) := by
  refine ⟨?_, ?_, ?_, fun hSelf hND => sendMessage_selfRemove env st h m hSelf hND⟩
  · intro hnot
    unfold removeMessageHook
    split
    · rfl
    · rename_i arr hl
      rw [hnot arr hl]
  · intro arr i hl hidx
    have hrem : removeMessageHook st h k =
        scheduleCleanup { st with hooks := setHooks st.hooks h (arr.set i none) } h := by
      simp only [removeMessageHook, hl, hidx]
    rw [hrem]
    refine ⟨?_, by simp, scheduleCleanup_dirty_mem _ h, rfl⟩
    rw [show (scheduleCleanup { st with hooks := setHooks st.hooks h (arr.set i none) } h).hooks
        = setHooks st.hooks h (arr.set i none) from rfl]
    exact lookup_setHooks_self _ _ _
  · intro hcount
    cases hl : lookupHooks st.hooks h with
    | none =>
      have hrem : removeMessageHook st h k = st := by
        unfold removeMessageHook
        split
        · rfl
        · rename_i arr hl2
          rw [hl2] at hl
          cases hl
      rw [hrem, sendMessage_eq_noHooks env st h m hl]
      exact invokeHandler_count_hookRun_zero env st h m k
    | some arr =>
      have hslots : slotsOfD st h = arr := by simp [slotsOfD, hl]
      cases hidx : slotIdx k arr with
      | none =>
        have hrem : removeMessageHook st h k = st := by
          simp only [removeMessageHook, hl, hidx]
        have hz : arr.count (some k) = 0 :=
          List.count_eq_zero.mpr ((slotIdx_none_iff k arr).mp hidx)
        have hle := sendMessage_count_hookRun env st h m k
        rw [hslots, hz] at hle
        rw [hrem]
        omega
      | some i =>
        have hrem : removeMessageHook st h k =
            scheduleCleanup { st with hooks := setHooks st.hooks h (arr.set i none) } h := by
          simp only [removeMessageHook, hl, hidx]
        have hgi : arr[i]? = some (some k) := (slotIdx_spec k arr i hidx).1
        have hcz : (arr.set i none).count (some k) = 0 := by
          have hc1 := count_set_none k arr i hgi
          rw [hslots] at hcount
          omega
        have hlk2 : lookupHooks (removeMessageHook st h k).hooks h = some (arr.set i none) := by
          rw [hrem]
          rw [show (scheduleCleanup
              { st with hooks := setHooks st.hooks h (arr.set i none) } h).hooks
              = setHooks st.hooks h (arr.set i none) from rfl]
          exact lookup_setHooks_self _ _ _
        have hle := sendMessage_count_hookRun env (removeMessageHook st h k) h m k
        rw [slotsOfD, hlk2] at hle
        have hle2 : ((sendMessage env (removeMessageHook st h k) h m).2.1).count
            (Event.hookRun k) ≤ (arr.set i none).count (some k) := hle
        rw [hcz] at hle2
        omega

theorem stepPend_of_eq (stA stB : EngineState) (hp : stB.pending = stA.pending)
    (hn : stA.nextHandle ≤ stB.nextHandle) : stepPend stA stB :=
  ⟨hn, Or.inl hp⟩

theorem stepPend_trans (a b c : EngineState) (h1 : stepPend a b) (h2 : stepPend b c) :
    stepPend a c := by
  obtain ⟨hn1, hp1⟩ := h1
  obtain ⟨hn2, hp2⟩ := h2
  refine ⟨Nat.le_trans hn1 hn2, ?_⟩
  rcases hp2 with he2 | ⟨j, hj, hjn⟩
  · rcases hp1 with he1 | ⟨j, hj, hjn⟩
    · exact Or.inl (he2.trans he1)
    · exact Or.inr ⟨j, he2.trans hj, hjn⟩
  · exact Or.inr ⟨j, hj, Nat.le_trans hn1 hjn⟩

theorem enqueueMessage_stepPend (st : EngineState) (h : Nat) (m : Msg) :
    stepPend st (enqueueMessage st h m).1 := by
  cases hp : st.pending with
  | none =>
    obtain ⟨h1, h2⟩ := enqueueMessage_pending_none st h m hp
    exact ⟨by omega, Or.inr ⟨st.nextHandle, h1, Nat.le_refl _⟩⟩
  | some j =>
    obtain ⟨h1, h2⟩ := enqueueMessage_pending_some st h m j hp
    exact ⟨by omega, Or.inl (by rw [h1, hp])⟩

theorem postMessage_stepPend (env : Env) (st : EngineState) (h : Nat) (m : Msg) :
    stepPend st (postMessage env st h m).1 := by
  by_cases hc : m.isConflatable = false
  · rw [postMessage_nonConf env st h m hc]
    exact enqueueMessage_stepPend st h m
  · rw [postMessage, if_neg hc]
    dsimp only
    split
    · exact stepPend_of_eq _ _ rfl (Nat.le_refl _)
    · refine stepPend_trans st { st with queue := (scanConflate env h m st.queue).2.1 } _ ?_ ?_
      · exact stepPend_of_eq _ _ rfl (Nat.le_refl _)
      · exact enqueueMessage_stepPend _ h m

theorem applyPosts_stepPend (env : Env) : ∀ (ps : List (Nat × Msg)) (st : EngineState),
    stepPend st (applyPosts env ps st).1 := by
  intro ps
  induction ps with
  | nil => intro st; exact stepPend_of_eq _ _ rfl (Nat.le_refl _)
  | cons p rest ih =>
    intro st
    rw [applyPosts_cons]
    exact stepPend_trans _ _ _ (postMessage_stepPend env st p.1 p.2)
      (ih (postMessage env st p.1 p.2).1)

theorem invokeHandler_stepPend (env : Env) (st : EngineState) (h : Nat) (m : Msg) :
    stepPend st (invokeHandler env st h m).1 := by
  cases hpr : (env.procBeh h m).2 with
  | none =>
    rw [invokeHandler_eq_none env st h m hpr]
    exact applyPosts_stepPend env _ st
  | some e =>
    cases he : env.exnBeh e with
    | none =>
      rw [invokeHandler_eq_exn env st h m e hpr he]
      exact applyPosts_stepPend env _ st
    | some e2 =>
      rw [invokeHandler_eq_prop env st h m e e2 hpr he]
      exact applyPosts_stepPend env _ st

theorem sendMessage_stepPend (env : Env) (st : EngineState) (h : Nat) (m : Msg) :
    stepPend st (sendMessage env st h m).1 := by
  cases hl : lookupHooks st.hooks h with
  | none =>
    rw [sendMessage_eq_noHooks env st h m hl]
    exact invokeHandler_stepPend env st h m
  | some arr =>
    by_cases ha : arr.length = 0
    · rw [sendMessage_eq_empty env st h m arr hl ha]
      exact invokeHandler_stepPend env st h m
    · have hfr := runHooksDown_frame env h m arr.length st
      rcases hrun : runHooksDown env h m arr.length st with ⟨st1, evs, r⟩
      rw [hrun] at hfr
      dsimp only at hfr
      have hstep1 : stepPend st st1 := stepPend_of_eq st st1 hfr.2.1 (by rw [hfr.2.2.1])
      cases r with
      | ok b =>
        cases b with
        | true =>
          rw [sendMessage_eq_run_true env st st1 h m arr evs hl ha hrun]
          exact stepPend_trans _ _ _ hstep1 (invokeHandler_stepPend env st1 h m)
        | false =>
          rw [sendMessage_eq_run_false env st st1 h m arr evs hl ha hrun]
          exact hstep1
      | error e =>
        rw [sendMessage_eq_run_error env st st1 h m arr evs e hl ha hrun]
        exact hstep1

theorem runLoopFuel_stepPend (env : Env) : ∀ (n : Nat) (st : EngineState),
    stepPend st (runLoopFuel env n st).1 := by
  intro n
  induction n with
  | zero => intro st; exact stepPend_of_eq _ _ rfl (Nat.le_refl _)
  | succ n ih =>
    intro st
    cases hq : st.queue with
    | nil =>
      rw [runLoopFuel_nil env n st hq]
      exact stepPend_of_eq _ _ rfl (Nat.le_refl _)
    | cons e rest =>
      cases hs : e.sent with
      | true =>
        rw [runLoopFuel_sent env n st e rest hq hs]
        exact stepPend_of_eq _ _ rfl (Nat.le_refl _)
      | false =>
        cases hh : e.handler with
        | none =>
          rw [runLoopFuel_skip_h env n st e rest hq hs hh]
          refine stepPend_trans st { st with queue := rest } _ ?_ ?_
          · exact stepPend_of_eq _ _ rfl (Nat.le_refl _)
          · exact ih _
        | some hd =>
          cases hm : e.msg with
          | none =>
            rw [runLoopFuel_skip_m env n st e rest hd hq hs hh hm]
            refine stepPend_trans st { st with queue := rest } _ ?_ ?_
            · exact stepPend_of_eq _ _ rfl (Nat.le_refl _)
            · exact ih _
          | some m =>
            have hsend := sendMessage_stepPend env { st with queue := rest } hd m
            rcases hrun : sendMessage env { st with queue := rest } hd m with ⟨st2, evs, x⟩
            rw [hrun] at hsend
            dsimp only at hsend
            have hstep0 : stepPend st ({ st with queue := rest } : EngineState) :=
              stepPend_of_eq _ _ rfl (Nat.le_refl _)
            cases x with
            | some ex =>
              rw [runLoopFuel_live_err env n st st2 e rest hd m evs ex hq hs hh hm hrun]
              exact stepPend_trans _ _ _ hstep0 hsend
            | none =>
              rw [runLoopFuel_live env n st st2 e rest hd m evs hq hs hh hm hrun]
              exact stepPend_trans _ _ _ (stepPend_trans _ _ _ hstep0 hsend) (ih st2)

theorem runMessageLoop_pending (env : Env) (st : EngineState) :
    (runMessageLoop env st).1.pending = none ∨
    ∃ j, (runMessageLoop env st).1.pending = some j ∧ st.nextHandle ≤ j := by
  by_cases hq : st.queue = []
  · rw [runMessageLoop_empty env st hq]
    exact Or.inl rfl
  · rw [runMessageLoop_run env st hq]
    have hstep := runLoopFuel_stepPend env (st.queue.length + 1)
      { st with pending := none, queue := st.queue ++ [sentinelE] }
    obtain ⟨hn, hp⟩ := hstep
    rcases hp with hp | ⟨j, hj, hjn⟩
    · exact Or.inl hp
    · exact Or.inr ⟨j, hj, hjn⟩

/-! ### `flush` equations -/

theorem flush_noop_guard (env : Env) (st : EngineState) (hg : st.flushGuard = true) :
    flush env st = (st, [], none) := by
  simp [flush, hg]

theorem flush_noop_pending (env : Env) (st : EngineState) (hp : st.pending = none) :
    flush env st = (st, [], none) := by
  simp [flush, hp]

theorem flush_eq_run_ok (env : Env) (st st1 : EngineState) (evs : List Event) (j : Nat)
    (hg : st.flushGuard = false) (hp : st.pending = some j)
    (hr : runMessageLoop env { st with pending := none, flushGuard := true } =
      (st1, evs, none)) :
    flush env st = ({ st1 with flushGuard := false }, evs, none) := by
  have hcond : ¬(st.flushGuard = true ∨ st.pending = none) := by simp [hg, hp]
  simp only [flush, if_neg hcond, hr]

theorem flush_eq_run_err (env : Env) (st st1 : EngineState) (evs : List Event)
    (j ex : Nat) (hg : st.flushGuard = false) (hp : st.pending = some j)
    (hr : runMessageLoop env { st with pending := none, flushGuard := true } =
      (st1, evs, some ex)) :
    flush env st = (st1, evs, some ex) := by
  have hcond : ¬(st.flushGuard = true ∨ st.pending = none) := by simp [hg, hp]
  simp only [flush, if_neg hcond, hr]

/-- C8: a single pending-task handle guards scheduling, engine-wide: posting
while a task is pending leaves the handle untouched (it is never overwritten
while non-null) and allocates no new handle; enqueueing with no pending task
schedules a fresh task whose handle is the current counter value; a loop run
clears the handle as its first step, so its resulting handle is either null
or a handle freshly allocated during the run; and `flush` cancels and nulls
the old handle before running, so the old handle is gone afterwards. -/
theorem c8_single_pending_guard (env : Env) (st : EngineState) (h : Nat) (m : Msg)
    (j : Nat) :
    (st.pending = some j →
        (postMessage env st h m).1.pending = some j
      ∧ (postMessage env st h m).1.nextHandle = st.nextHandle)
  ∧ (st.pending = none → (enqueueMessage st h m).1.pending = some st.nextHandle)
  ∧ ((runMessageLoop env st).1.pending = none ∨
        ∃ j2, (runMessageLoop env st).1.pending = some j2 ∧ st.nextHandle ≤ j2)
  ∧ (st.pending = some j → st.flushGuard = false → j < st.nextHandle →
        (flush env st).1.pending ≠ some j) := by
  refine ⟨?_, ?_, runMessageLoop_pending env st, ?_⟩
  · intro hp
    by_cases hc : m.isConflatable = false
    · rw [postMessage_nonConf env st h m hc]
      exact enqueueMessage_pending_some st h m j hp
    · rw [postMessage, if_neg hc]
      dsimp only
      split
      · exact ⟨hp, rfl⟩
      · exact enqueueMessage_pending_some _ h m j hp
  · intro hp
    exact (enqueueMessage_pending_none st h m hp).1
  · intro hp hg hlt
    have hrm := runMessageLoop_pending env { st with pending := none, flushGuard := true }
    rcases hr : runMessageLoop env { st with pending := none, flushGuard := true }
      with ⟨st1, evs, x⟩
    rw [hr] at hrm
    have hrm2 : st1.pending = none ∨
        ∃ j2, st1.pending = some j2 ∧ st.nextHandle ≤ j2 := by
      simpa using hrm
    have hfp : (flush env st).1.pending = st1.pending := by
      cases x with
      | none => rw [flush_eq_run_ok env st st1 evs j hg hp hr]
      | some ex => rw [flush_eq_run_err env st st1 evs j ex hg hp hr]
    rw [hfp]
    rcases hrm2 with hnone | ⟨j2, hj2, hjn⟩
    · rw [hnone]
      intro hc
      cases hc
    · rw [hj2]
      intro hc
      injection hc with hc
      subst hc
      omega

/-- C9: `flush` is a no-op when re-entered (guard set) or when no loop run
is scheduled — the state is returned unchanged; when a run is scheduled it
cancels the pending task and executes one full loop run synchronously
inline: the run delivers exactly the live queued entries, the queue is left
holding only the entries enqueued during the run, no exception escapes, and
the recursion guard is restored to false afterwards. -/
theorem c9_flush_inline_run (env : Env) (st : EngineState) :
    (st.flushGuard = true → flush env st = (st, [], none))
  ∧ (st.pending = none → flush env st = (st, [], none))
  ∧ (∀ j, st.pending = some j → st.flushGuard = false →
      (∀ e ∈ st.queue, e.sent = false) →
      (∀ h2 m2 p, p ∈ (env.procBeh h2 m2).1 → p.2.isConflatable = false) →
      (∀ e, env.exnBeh e = none) →
        (flush env st).2.2 = none
      ∧ (flush env st).1.flushGuard = false
      ∧ dispatches (flush env st).2.1 = liveEntries st.queue
      ∧ (flush env st).1.queue = enqueues (flush env st).2.1) := by
  refine ⟨flush_noop_guard env st, flush_noop_pending env st, ?_⟩
  intro j hp hg H0 H1 H2
  have hspec := runMessageLoop_spec env { st with pending := none, flushGuard := true }
    H0 H1 H2
  rcases hr : runMessageLoop env { st with pending := none, flushGuard := true }
    with ⟨st1, evs, x⟩
  rw [hr] at hspec
  dsimp only at hspec
  have hx : x = none := hspec.1
  subst hx
  rw [flush_eq_run_ok env st st1 evs j hg hp hr]
  exact ⟨rfl, rfl, hspec.2.1, hspec.2.2.1⟩

/-- C10: the catch blocks around hook and handler invocation call the
installed exception handler unguarded, so when that handler itself throws,
the exception propagates out of `sendMessage` to its caller — shown both
for a faulting hook (the newest installed hook throws `e` and the exception
handler throws `e2` in response; the chain aborts after that single hook
and `e2` escapes) and for a faulting `processMessage`, and it equally
propagates out of a running loop run dispatching such a message. -/
theorem c10_exception_handler_rethrow (env : Env) (st : EngineState) (h : Nat)
    (m : Msg) (k e e2 : Nat) :
    (∀ arr, lookupHooks st.hooks h = some (arr ++ [some k]) →
      env.hookBeh k h m = ⟨[], HookBeh.thrw e⟩ →
      env.exnBeh e = some e2 →
        sendMessage env st h m = (st, [Event.hookRun k], some e2))
  ∧ (lookupHooks st.hooks h = none →
      (env.procBeh h m).1 = [] →
      (env.procBeh h m).2 = some e →
      env.exnBeh e = some e2 →
        sendMessage env st h m = (st, [Event.process h m], some e2))
  ∧ (∀ arr rest, lookupHooks st.hooks h = some (arr ++ [some k]) →
      env.hookBeh k h m = ⟨[], HookBeh.thrw e⟩ →
      env.exnBeh e = some e2 →
      st.queue = ⟨some h, some m, false⟩ :: rest →
        (runMessageLoop env st).2.2 = some e2) := by
  have hookPart : ∀ (stx : EngineState) (arr : List (Option Nat)),
      lookupHooks stx.hooks h = some (arr ++ [some k]) →
      env.hookBeh k h m = ⟨[], HookBeh.thrw e⟩ →
      env.exnBeh e = some e2 →
      sendMessage env stx h m = (stx, [Event.hookRun k], some e2) := by
    intro stx arr hl hbeh hexn
    have hb : (env.hookBeh k h m).beh = HookBeh.thrw e := by rw [hbeh]
    have hrm : (env.hookBeh k h m).removals = [] := by rw [hbeh]
    have hik : invokeHook env stx k h m = (stx, [Event.hookRun k], Except.error e2) := by
      simp [invokeHook, hb, hrm, hexn, applyRemovals]
    have hlen : (arr ++ [some k]).length = arr.length + 1 := by simp
    have hread : readSlot stx h arr.length = some k := by
      simp [readSlot, hl, List.getD]
    have hrun : runHooksDown env h m (arr.length + 1) stx =
        (stx, [Event.hookRun k], Except.error e2) := by
      rw [runHooksDown, hread]
      dsimp only
      rw [hik]
    have hrun2 : runHooksDown env h m (arr ++ [some k]).length stx =
        (stx, [Event.hookRun k], Except.error e2) := by
      rw [hlen]
      exact hrun
    rw [sendMessage_eq_run_error env stx stx h m (arr ++ [some k]) [Event.hookRun k] e2 hl
      (by simp) hrun2]
  refine ⟨fun arr hl hbeh hexn => hookPart st arr hl hbeh hexn, ?_, ?_⟩
  · intro hl hposts hpr hexn
    have hap : applyPosts env (env.procBeh h m).1 st = (st, []) := by
      rw [hposts]
      rfl
    rw [sendMessage_eq_noHooks env st h m hl,
        invokeHandler_eq_prop env st h m e e2 hpr hexn, hap]
  · intro arr rest hl hbeh hexn hq
    have hqne : st.queue ≠ [] := by rw [hq]; simp
    rw [runMessageLoop_run env st hqne]
    have hq2 : ({ st with pending := none, queue := st.queue ++ [sentinelE] } :
        EngineState).queue = (⟨some h, some m, false⟩ : QueueEntry) :: (rest ++ [sentinelE]) := by
      simp [hq]
    have hsend := hookPart
      { st with pending := none, queue := rest ++ [sentinelE] } arr hl hbeh hexn
    rw [runLoopFuel_live_err env st.queue.length
      { st with pending := none, queue := st.queue ++ [sentinelE] }
      { st with pending := none, queue := rest ++ [sentinelE] }
      ⟨some h, some m, false⟩ (rest ++ [sentinelE]) h m [Event.hookRun k] e2 hq2 rfl rfl rfl
      hsend]

/-! ### Witnesses: each claim theorem exercised at a concrete instance -/

theorem count_pair_le_one (a b : Nat) (hab : a ≠ b) (k2 : Nat) :
    ([some a, some b] : List (Option Nat)).count (some k2) ≤ 1 := by
  by_cases h1 : k2 = a
  · subst h1
    have h2 : ((some b : Option Nat) == some k2) = false := by
      simp only [beq_eq_false_iff_ne, ne_eq, Option.some.injEq]
      exact fun hc => hab hc.symm
    simp [List.count_cons, h2]
  · have h2 : ((some a : Option Nat) == some k2) = false := by
      simp only [beq_eq_false_iff_ne, ne_eq, Option.some.injEq]
      exact fun hc => h1 hc.symm
    simp [List.count_cons, h2]
    split <;> omega

/-- Witness for C1: a benign environment, handler 0 with hooks 10 and 11. -/
theorem c1_witness :
    (∀ k, (wEnv.hookBeh k 0 mW).removals = [])
  ∧ ((sendMessage wEnv wSt 0 mW).2.1 =
      (hookChain wEnv 0 mW ((slotsOfD wSt 0).reverse.filterMap id)).1.map Event.hookRun ++
      (if (hookChain wEnv 0 mW ((slotsOfD wSt 0).reverse.filterMap id)).2
       then (invokeHandler wEnv wSt 0 mW).2.1 else [])
   ∧ (sendMessage wEnv wSt 0 mW).2.1.count (Event.process 0 mW) =
      (if (hookChain wEnv 0 mW ((slotsOfD wSt 0).reverse.filterMap id)).2 then 1 else 0)) :=
  ⟨fun _ => rfl,
   c1_send_hooks_newest_first wEnv wSt 0 mW (fun _ => rfl) (fun _ => ⟨true, rfl⟩)⟩

/-- Witness for C2: both branches of the amended claim, at a non-conflatable
and at a conflatable message. -/
theorem c2_witness :
    ((postMessage wEnv wSt 0 mW).1.queue = wSt.queue ++ [⟨some 0, some mW, false⟩]
   ∧ (postMessage wEnv wSt 0 mW).2 = [Event.enq 0 mW])
  ∧ ((postMessage wEnv wSt 0 mWc).2 =
       (claimScan wEnv mWc (matchMsgs 0 mWc wSt.queue)).2 ++
       (if (claimScan wEnv mWc (matchMsgs 0 mWc wSt.queue)).1 then []
        else [Event.enq 0 mWc])
   ∧ (postMessage wEnv wSt 0 mWc).1.queue.length =
       wSt.queue.length +
       (if (claimScan wEnv mWc (matchMsgs 0 mWc wSt.queue)).1 then 0 else 1)) :=
  ⟨(c2_post_conflation_scan wEnv wSt 0 mW).1 rfl,
   (c2_post_conflation_scan wEnv wSt 0 mWc).2 rfl⟩

/-- Witness for C3: one queued message, benign environment. -/
theorem c3_witness :
    (∀ e ∈ wSt3.queue, e.sent = false)
  ∧ ((wSt3.queue = [] →
        runMessageLoop wEnv wSt3 = ({ wSt3 with pending := none }, [], none))
   ∧ (runMessageLoop wEnv wSt3).2.2 = none
   ∧ dispatches (runMessageLoop wEnv wSt3).2.1 = liveEntries wSt3.queue
   ∧ (runMessageLoop wEnv wSt3).1.queue = enqueues (runMessageLoop wEnv wSt3).2.1) :=
  ⟨by decide,
   c3_loop_run_sentinel_bounded wEnv wSt3 (by decide)
     (fun h2 m2 p hp => nomatch hp) (fun _ => rfl)⟩

/-- Witness for C4: hook 10 and the handler both fault; the exception handler
absorbs, and a later send from the resulting state is unaffected. -/
theorem c4_witness :
    (∀ e, wEnv4.exnBeh e = none)
  ∧ ((sendMessage wEnv4 wSt 0 mW).2.2 = none
   ∧ (sendMessage (deThrow wEnv4) wSt 0 mW).2.1 =
       eraseExn (sendMessage wEnv4 wSt 0 mW).2.1
   ∧ (sendMessage wEnv4 (sendMessage wEnv4 wSt 0 mW).1 1 mW).2.1 =
       (sendMessage wEnv4 wSt 1 mW).2.1) :=
  ⟨fun _ => rfl,
   c4_send_exception_isolation wEnv4 wSt 0 mW 1 mW (fun _ => rfl)
     (fun _ _ _ => rfl) (fun _ _ _ hp => nomatch hp)⟩

/-- Witness for C5: clearing handler 0 silences it in the subsequent run. -/
theorem c5_witness :
    (∀ e ∈ wSt5.queue, e.sent = false)
  ∧ ((clearData wSt5 0).queue.length = wSt5.queue.length
   ∧ (∀ i e, wSt5.queue.get? i = some e → e.handler = some 0 →
        (clearData wSt5 0).queue.get? i = some ⟨none, none, e.sent⟩)
   ∧ (∀ i e, wSt5.queue.get? i = some e → e.handler ≠ some 0 →
        (clearData wSt5 0).queue.get? i = some e)
   ∧ (∀ arr, lookupHooks (clearData wSt5 0).hooks 0 = some arr → ∀ s ∈ arr, s = none)
   ∧ (∀ m2, Event.process 0 m2 ∉ (runMessageLoop wEnv (clearData wSt5 0)).2.1)) :=
  ⟨by decide,
   c5_clearData_silences wEnv wSt5 0 (by decide)
     (fun h2 m2 p hp => nomatch hp) (fun _ => rfl)⟩

/-- Witness for C6: removing an absent hook is a no-op; removing hook 10
tombstones slot 0; the removed hook no longer runs; hook 11 removing itself
mid-send leaves the delivery trace unchanged. -/
theorem c6_witness :
    removeMessageHook wSt 0 12 = wSt
  ∧ (lookupHooks (removeMessageHook wSt 0 10).hooks 0 = some ([some 10, some 11].set 0 none)
   ∧ ([some 10, some 11].set 0 none).length = ([some 10, some 11] : List (Option Nat)).length
   ∧ 0 ∈ (removeMessageHook wSt 0 10).dirty
   ∧ (removeMessageHook wSt 0 10).queue = wSt.queue)
  ∧ ((sendMessage wEnv (removeMessageHook wSt 0 10) 0 mW).2.1).count (Event.hookRun 10) = 0
  ∧ (sendMessage wEnv6 wSt 0 mW).2.1 = (sendMessage (pureEnv wEnv6) wSt 0 mW).2.1 := by
  refine ⟨?_, ?_, ?_, ?_⟩
  · exact (c6_remove_hook wEnv wSt 0 12 mW).1 (by
      intro arr harr
      rw [show lookupHooks wSt.hooks 0 = some [some 10, some 11] from rfl] at harr
      injection harr with h2
      subst h2
      decide)
  · exact (c6_remove_hook wEnv wSt 0 10 mW).2.1 [some 10, some 11] 0 rfl (by decide)
  · exact (c6_remove_hook wEnv wSt 0 10 mW).2.2.1 (by decide)
  · exact (c6_remove_hook wEnv6 wSt 0 10 mW).2.2.2
      (by
        intro k2
        by_cases hk : k2 = 11
        · subst hk
          right
          rfl
        · left
          simp [wEnv6, hk])
      (by
        intro k2
        rw [show slotsOfD wSt 0 = [some 10, some 11] from rfl]
        exact count_pair_le_one 10 11 (by decide) k2)

/-- Witness for C7: re-installing hook 10 is a no-op; installing fresh hook 12
appends it; a double install still runs it at most once; the fresh install
runs first on the next send. -/
theorem c7_witness :
    installMessageHook wSt 0 10 = wSt
  ∧ slotsOfD (installMessageHook wSt 0 12) 0 = slotsOfD wSt 0 ++ [some 12]
  ∧ ((sendMessage wEnv (installMessageHook (installMessageHook wSt 0 12) 0 12) 0 mW).2.1).count
      (Event.hookRun 12) ≤ 1
  ∧ ((sendMessage wEnv (installMessageHook wSt 0 12) 0 mW).2.1).head? =
      some (Event.hookRun 12) := by
  refine ⟨?_, ?_, ?_, ?_⟩
  · exact (c7_install_idempotent wEnv wSt 0 10 mW (fun _ => rfl) (fun _ => ⟨true, rfl⟩)).1
      ⟨[some 10, some 11], rfl, by decide⟩
  · exact (c7_install_idempotent wEnv wSt 0 12 mW (fun _ => rfl) (fun _ => ⟨true, rfl⟩)).2.1
      (by
        intro arr harr
        rw [show lookupHooks wSt.hooks 0 = some [some 10, some 11] from rfl] at harr
        injection harr with h2
        subst h2
        decide)
  · exact (c7_install_idempotent wEnv wSt 0 12 mW (fun _ => rfl)
      (fun _ => ⟨true, rfl⟩)).2.2.1 (by decide)
  · exact (c7_install_idempotent wEnv wSt 0 12 mW (fun _ => rfl)
      (fun _ => ⟨true, rfl⟩)).2.2.2
      (by
        intro arr harr
        rw [show lookupHooks wSt.hooks 0 = some [some 10, some 11] from rfl] at harr
        injection harr with h2
        subst h2
        decide)

/-- Witness for C8: posting while pending keeps the handle; enqueueing with
nothing pending claims a fresh handle; a loop run never resurrects an old
handle; flush cancels the pending handle for good. -/
theorem c8_witness :
    ((postMessage wEnv wSt8 0 mW).1.pending = some 0
   ∧ (postMessage wEnv wSt8 0 mW).1.nextHandle = wSt8.nextHandle)
  ∧ (enqueueMessage wSt8b 0 mW).1.pending = some wSt8b.nextHandle
  ∧ ((runMessageLoop wEnv wSt8).1.pending = none ∨
       ∃ j2, (runMessageLoop wEnv wSt8).1.pending = some j2 ∧ wSt8.nextHandle ≤ j2)
  ∧ (flush wEnv wSt8).1.pending ≠ some 0 := by
  refine ⟨?_, ?_, ?_, ?_⟩
  · exact (c8_single_pending_guard wEnv wSt8 0 mW 0).1 rfl
  · exact (c8_single_pending_guard wEnv wSt8b 0 mW 0).2.1 rfl
  · exact (c8_single_pending_guard wEnv wSt8 0 mW 0).2.2.1
  · exact (c8_single_pending_guard wEnv wSt8 0 mW 0).2.2.2 rfl rfl (by decide)

/-- Witness for C9: a guarded flush and an idle flush are no-ops; a scheduled
flush runs the loop inline and restores the guard. -/
theorem c9_witness :
    flush wEnv wSt9g = (wSt9g, [], none)
  ∧ flush wEnv wSt8b = (wSt8b, [], none)
  ∧ ((flush wEnv wSt9).2.2 = none
   ∧ (flush wEnv wSt9).1.flushGuard = false
   ∧ dispatches (flush wEnv wSt9).2.1 = liveEntries wSt9.queue
   ∧ (flush wEnv wSt9).1.queue = enqueues (flush wEnv wSt9).2.1) := by
  refine ⟨?_, ?_, ?_⟩
  · exact (c9_flush_inline_run wEnv wSt9g).1 rfl
  · exact (c9_flush_inline_run wEnv wSt8b).2.1 rfl
  · exact (c9_flush_inline_run wEnv wSt9).2.2 0 rfl rfl (by decide)
      (fun h2 m2 p hp => nomatch hp) (fun _ => rfl)

/-- Witness for C10: hook 10 throws 5, the exception handler throws 9, and 9
escapes from the hook path, the handler path, and a full loop run. -/
theorem c10_witness :
    sendMessage wEnv10 wSt10 0 mW = (wSt10, [Event.hookRun 10], some 9)
  ∧ sendMessage wEnv10 wSt10 1 mW = (wSt10, [Event.process 1 mW], some 9)
  ∧ (runMessageLoop wEnv10 wSt10).2.2 = some 9 := by
  refine ⟨?_, ?_, ?_⟩
  · exact (c10_exception_handler_rethrow wEnv10 wSt10 0 mW 10 5 9).1 [] rfl rfl rfl
  · exact (c10_exception_handler_rethrow wEnv10 wSt10 1 mW 10 5 9).2.1 rfl rfl rfl rfl
  · exact (c10_exception_handler_rethrow wEnv10 wSt10 0 mW 10 5 9).2.2 [] [] rfl rfl rfl rfl
